import Mathlib

/-!
Verification of the SignalSculptor core engine (SignalLib.cpp) and its
transport-layer duplicate (service_impl.cpp).

Modelling conventions: C++ doubles become rationals; the transcendental
std::sin is an explicit function parameter `s : ℚ → ℚ`, since every claim
under scrutiny is either independent of the sine values or assumes only
the bound |sin| ≤ 1.  The wall-clock field calculation_time_ms is not
modelled (it is a timing diagnostic, not data).  Loops of the C++ sources
that advance an index until a break condition are embedded with explicit
fuel plus characterisation lemmas; cursor loops over bit strings become
structural recursion on the remaining suffix, carrying the cursor index.
-/

namespace SignalLib

/-- Data point of the point sequences, x = time in seconds, y = level. -/
structure Point where
  x : ℚ
  y : ℚ
deriving DecidableEq, Repr

/-- Result bundle of every transform: three ordered point sequences. -/
structure SignalResult where
  input : List Point
  transmitted : List Point
  output : List Point
deriving DecidableEq, Repr

/-- Default-constructed result: the empty-sequence error sentinel. -/
def emptyResult : SignalResult := ⟨[], [], []⟩

/-- The double constant PI of SignalLib.cpp, as the written decimal. -/
def PI : ℚ := 3.14159265358979323846

/-- Model of std::round, rounding half away from zero. -/
def roundAway (q : ℚ) : ℚ :=
  if q < 0 then -((⌊-q + 1/2⌋ : ℤ) : ℚ) else ((⌊q + 1/2⌋ : ℤ) : ℚ)

/-- Model of the 1e-6 rounding step round(t * 1000000) / 1000000.0. -/
def round6 (q : ℚ) : ℚ :=
  roundAway (q * 1000000) / 1000000

/-- Model of std::lower_bound, comparing by the x field: index of the first
point whose x is not below the query time (list length when none is). -/
def lowerBoundIdx (l : List Point) (t : ℚ) : ℕ :=
  l.findIdx (fun p => decide (t ≤ p.x))

/-- The interpolation helper get_input_value_at_time of SignalLib.cpp:
empty list gives 0, times at or outside the ends clamp to the end values,
otherwise linear interpolation on the bracketing pair found by
lower_bound, with a degenerate-interval guard returning the left y. -/
def get_input_value_at_time (input_signal : List Point) (time : ℚ) : ℚ :=
  match input_signal with
  | [] => 0
  | p₀ :: rest =>
    let l := p₀ :: rest
    let front := p₀
    let back := l.getLast (List.cons_ne_nil _ _)
    if time ≤ front.x then front.y
    else if back.x ≤ time then back.y
    else
      let i := lowerBoundIdx l time
      if i = 0 then p₀.y
      else
        let p2 := l.getD i ⟨0, 0⟩
        let p1 := l.getD (i - 1) ⟨0, 0⟩
        if p2.x = p1.x then p1.y
        else p1.y + (time - p1.x) / (p2.x - p1.x) * (p2.y - p1.y)

/-- Scheme selector for analog modulation. -/
inductive AnalogModulation where
  | AM
  | FM
  | PM
deriving DecidableEq, Repr

/-- Scheme selector for digital modulation, as used by the switch of
DigitalToAnalog. -/
inductive DigitalModulation where
  | ASK
  | FSK
  | PSK
deriving DecidableEq, Repr

/-- Scheme selector for baseband line coding. -/
inductive LineCoding where
  | NRZ_L
  | NRZ_I
  | MANCHESTER
  | DIFFERENTIAL_MANCHESTER
  | AMI
  | PSEUDOTERNARY
  | B8ZS
  | HDB3
deriving DecidableEq, Repr

/-- PCM configuration: sampling rate and quantization level count. -/
structure PCMConfig where
  sampling_rate : ℚ
  quantization_levels : ℤ
deriving DecidableEq, Repr

/-- Delta-modulation configuration: sampling rate and step size. -/
structure DMConfig where
  sampling_rate : ℚ
  delta_step_size : ℚ
deriving DecidableEq, Repr

/-- Character admitted by the bit-string validation loops. -/
def validBinaryChar (c : Char) : Bool := c = '0' || c = '1'

/-- The digital base signal loop shared by DigitalToAnalog and
DigitalToDigital: per bit at cursor i, two points at x = i and x = i + 1
whose y is the bit value (bit_duration is 1.0). -/
def digitalInputGo (i : ℕ) (l : List Char) : List Point :=
  match l with
  | [] => []
  | c :: rest =>
    let val : ℚ := if c = '1' then 1 else 0
    ⟨(i : ℚ), val⟩ :: ⟨(i : ℚ) + 1, val⟩ :: digitalInputGo (i + 1) rest

/-- NRZ-L loop: voltage +1 for a '0' bit, -1 for a '1' bit. -/
def nrzlGo (i : ℕ) (l : List Char) : List Point :=
  match l with
  | [] => []
  | c :: rest =>
    let voltage : ℚ := if c = '0' then 1 else -1
    ⟨(i : ℚ), voltage⟩ :: ⟨(i : ℚ) + 1, voltage⟩ :: nrzlGo (i + 1) rest

/-- NRZ-I loop: toggle the running level on a '1' bit, hold on '0'. -/
def nrziGo (current_level : ℚ) (i : ℕ) (l : List Char) : List Point :=
  match l with
  | [] => []
  | c :: rest =>
    let lvl : ℚ := if c = '1' then -current_level else current_level
    ⟨(i : ℚ), lvl⟩ :: ⟨(i : ℚ) + 1, lvl⟩ :: nrziGo lvl (i + 1) rest

/-- Manchester loop: four points per bit, transition at the midpoint,
high-to-low for a '0' bit and low-to-high for a '1' bit. -/
def manchesterGo (i : ℕ) (l : List Char) : List Point :=
  match l with
  | [] => []
  | c :: rest =>
    (if c = '0' then
      [⟨(i : ℚ), 1⟩, ⟨(i : ℚ) + 1/2, 1⟩, ⟨(i : ℚ) + 1/2, -1⟩, ⟨(i : ℚ) + 1, -1⟩]
    else
      [⟨(i : ℚ), -1⟩, ⟨(i : ℚ) + 1/2, -1⟩, ⟨(i : ℚ) + 1/2, 1⟩, ⟨(i : ℚ) + 1, 1⟩]) ++
      manchesterGo (i + 1) rest

/-- Differential Manchester loop: invert the level at bit start iff the
bit is '0', then always invert again at the midpoint. -/
def diffManchesterGo (current_level : ℚ) (i : ℕ) (l : List Char) : List Point :=
  match l with
  | [] => []
  | c :: rest =>
    let lvl1 : ℚ := if c = '0' then -current_level else current_level
    let lvl2 : ℚ := -lvl1
    ⟨(i : ℚ), lvl1⟩ :: ⟨(i : ℚ) + 1/2, lvl1⟩ :: ⟨(i : ℚ) + 1/2, lvl2⟩ ::
      ⟨(i : ℚ) + 1, lvl2⟩ :: diffManchesterGo lvl2 (i + 1) rest

/-- AMI loop: a '0' bit gives 0 V; each '1' bit flips the running mark
polarity (seed -1, so the first mark is +1) and emits it. -/
def amiGo (last_one_polarity : ℚ) (i : ℕ) (l : List Char) : List Point :=
  match l with
  | [] => []
  | c :: rest =>
    if c = '1' then
      ⟨(i : ℚ), -last_one_polarity⟩ :: ⟨(i : ℚ) + 1, -last_one_polarity⟩ ::
        amiGo (-last_one_polarity) (i + 1) rest
    else
      ⟨(i : ℚ), 0⟩ :: ⟨(i : ℚ) + 1, 0⟩ :: amiGo last_one_polarity (i + 1) rest

/-- Pseudoternary loop: the mirror of AMI, alternating on '0' bits. -/
def pseudoternaryGo (last_zero_polarity : ℚ) (i : ℕ) (l : List Char) : List Point :=
  match l with
  | [] => []
  | c :: rest =>
    if c = '0' then
      ⟨(i : ℚ), -last_zero_polarity⟩ :: ⟨(i : ℚ) + 1, -last_zero_polarity⟩ ::
        pseudoternaryGo (-last_zero_polarity) (i + 1) rest
    else
      ⟨(i : ℚ), 0⟩ :: ⟨(i : ℚ) + 1, 0⟩ :: pseudoternaryGo last_zero_polarity (i + 1) rest

/-- Lookahead test of the B8ZS branch: at least 8 characters remain at
the cursor and the next 8 are all '0'. -/
def eightZerosAhead (l : List Char) : Bool :=
  decide (8 ≤ l.length) && (l.take 8).all (fun c => c = '0')

/-- Lookahead test of the HDB3 branch: at least 4 characters remain at
the cursor and the next 4 are all '0'. -/
def fourZerosAhead (l : List Char) : Bool :=
  decide (4 ≤ l.length) && (l.take 4).all (fun c => c = '0')

/-- Emission of a substitution pattern: for the j-th value, two points at
x = i + j and x = i + j + 1 holding that value. -/
def patternPoints (i : ℕ) (vs : List ℚ) : List Point :=
  match vs with
  | [] => []
  | v :: rest => ⟨(i : ℚ), v⟩ :: ⟨(i : ℚ) + 1, v⟩ :: patternPoints (i + 1) rest

/-- B8ZS loop: AMI stepping, except that with eight zeros at the cursor
it emits the pattern {0,0,0,V,B,0,V,B} (V current polarity, B = -V),
advances the cursor by 8 and continues with polarity B. -/
def b8zsGo (last_one_polarity : ℚ) (i : ℕ) (l : List Char) : List Point :=
  match l with
  | [] => []
  | c :: rest =>
    if eightZerosAhead (c :: rest) then
      patternPoints i [0, 0, 0, last_one_polarity, -last_one_polarity, 0,
          last_one_polarity, -last_one_polarity] ++
        b8zsGo (-last_one_polarity) (i + 8) (rest.drop 7)
    else if c = '1' then
      ⟨(i : ℚ), -last_one_polarity⟩ :: ⟨(i : ℚ) + 1, -last_one_polarity⟩ ::
        b8zsGo (-last_one_polarity) (i + 1) rest
    else
      ⟨(i : ℚ), 0⟩ :: ⟨(i : ℚ) + 1, 0⟩ :: b8zsGo last_one_polarity (i + 1) rest
termination_by l.length
decreasing_by
  all_goals simp [List.length_drop]
  all_goals omega

/-- HDB3 loop: AMI stepping with a mark counter, except that with four
zeros at the cursor it substitutes {0,0,0,V} (even count, polarity kept)
or {B,0,0,V} with V = B = -polarity (odd count), advances the cursor by
4 and resets the counter. -/
def hdb3Go (last_one_polarity : ℚ) (ones_count : ℕ) (i : ℕ) (l : List Char) :
    List Point :=
  match l with
  | [] => []
  | c :: rest =>
    if fourZerosAhead (c :: rest) then
      if ones_count % 2 = 0 then
        patternPoints i [0, 0, 0, last_one_polarity] ++
          hdb3Go last_one_polarity 0 (i + 4) (rest.drop 3)
      else
        patternPoints i [-last_one_polarity, 0, 0, -last_one_polarity] ++
          hdb3Go (-last_one_polarity) 0 (i + 4) (rest.drop 3)
    else if c = '1' then
      ⟨(i : ℚ), -last_one_polarity⟩ :: ⟨(i : ℚ) + 1, -last_one_polarity⟩ ::
        hdb3Go (-last_one_polarity) (ones_count + 1) (i + 1) rest
    else
      ⟨(i : ℚ), 0⟩ :: ⟨(i : ℚ) + 1, 0⟩ :: hdb3Go last_one_polarity ones_count (i + 1) rest
termination_by l.length
decreasing_by
  all_goals simp [List.length_drop]
  all_goals omega

/-- The core line-coding transform DigitalToDigital of SignalLib.cpp. -/
def DigitalToDigital (binary : List Char) (type : LineCoding) : SignalResult :=
  if binary.isEmpty ∨ ¬ binary.all validBinaryChar then emptyResult
  else
    let input_signal := digitalInputGo 0 binary
    let transmitted :=
      match type with
      | .NRZ_L => nrzlGo 0 binary
      | .NRZ_I => nrziGo 1 0 binary
      | .MANCHESTER => manchesterGo 0 binary
      | .DIFFERENTIAL_MANCHESTER => diffManchesterGo 1 0 binary
      | .AMI => amiGo (-1) 0 binary
      | .PSEUDOTERNARY => pseudoternaryGo (-1) 0 binary
      | .B8ZS => b8zsGo (-1) 0 binary
      | .HDB3 => hdb3Go (-1) 0 0 binary
    ⟨input_signal, transmitted, input_signal⟩

/-- ASK loop body for one bit: 101 samples across the bit interval with
amplitude 1.0 for a '1' bit and 0.2 for a '0' bit, carrier 5 Hz. -/
def askBit (s : ℚ → ℚ) (i : ℕ) (c : Char) : List Point :=
  let amplitude : ℚ := if c = '1' then 1 else 0.2
  (List.range (100 + 1)).map fun (j : ℕ) =>
    let t : ℚ := (i : ℚ) * 1 + (j : ℚ) * (1 / 100)
    ⟨t, amplitude * s (2 * PI * 5 * t)⟩

/-- ASK outer loop over the bits. -/
def askGo (s : ℚ → ℚ) (i : ℕ) (l : List Char) : List Point :=
  match l with
  | [] => []
  | c :: rest => askBit s i c ++ askGo s (i + 1) rest

/-- FSK loop body for one bit: carrier 7 Hz for a '1' bit, 3 Hz for '0'. -/
def fskBit (s : ℚ → ℚ) (i : ℕ) (c : Char) : List Point :=
  let two_pi_freq : ℚ := if c = '1' then 2 * PI * 7 else 2 * PI * 3
  (List.range (100 + 1)).map fun (j : ℕ) =>
    let t : ℚ := (i : ℚ) * 1 + (j : ℚ) * (1 / 100)
    ⟨t, s (two_pi_freq * t)⟩

/-- FSK outer loop over the bits. -/
def fskGo (s : ℚ → ℚ) (i : ℕ) (l : List Char) : List Point :=
  match l with
  | [] => []
  | c :: rest => fskBit s i c ++ fskGo s (i + 1) rest

/-- PSK loop body for one bit: carrier 5 Hz, phase shift 0 for a '1' bit
and PI for a '0' bit. -/
def pskBit (s : ℚ → ℚ) (i : ℕ) (c : Char) : List Point :=
  let phase_shift : ℚ := if c = '1' then 0 else PI
  (List.range (100 + 1)).map fun (j : ℕ) =>
    let t : ℚ := (i : ℚ) * 1 + (j : ℚ) * (1 / 100)
    ⟨t, s (2 * PI * 5 * t + phase_shift)⟩

/-- PSK outer loop over the bits. -/
def pskGo (s : ℚ → ℚ) (i : ℕ) (l : List Char) : List Point :=
  match l with
  | [] => []
  | c :: rest => pskBit s i c ++ pskGo s (i + 1) rest

/-- The core keying transform DigitalToAnalog of SignalLib.cpp. -/
def DigitalToAnalog (s : ℚ → ℚ) (binary : List Char) (type : DigitalModulation) :
    SignalResult :=
  if binary.isEmpty ∨ ¬ binary.all validBinaryChar then emptyResult
  else
    let input_signal := digitalInputGo 0 binary
    let transmitted :=
      match type with
      | .ASK => askGo s 0 binary
      | .FSK => fskGo s 0 binary
      | .PSK => pskGo s 0 binary
    ⟨input_signal, transmitted, input_signal⟩

/-- The analog base-signal loop: total_samples points of the sine tone
y = amp * sin(2 pi freq t) at t = i / samples_per_sec. -/
def analogInputSignal (s : ℚ → ℚ) (freq amp : ℚ) (samples_per_sec : ℕ)
    (total_samples : ℕ) : List Point :=
  (List.range total_samples).map fun (i : ℕ) =>
    let t : ℚ := (i : ℚ) * (1 / (samples_per_sec : ℚ))
    ⟨t, amp * s (2 * PI * freq * t)⟩

/-- The core analog modulation transform AnalogToAnalog of SignalLib.cpp:
2.0 s of base signal at 200 samples per second, carrier at 5 times the
message frequency with amplitude 1.0, output equal to the input. -/
def AnalogToAnalog (s : ℚ → ℚ) (msg_freq msg_amp : ℚ) (type : AnalogModulation) :
    SignalResult :=
  if msg_freq ≤ 0 ∨ msg_amp ≤ 0 then emptyResult
  else
    let total_samples : ℕ := 400
    let input_signal := analogInputSignal s msg_freq msg_amp 200 total_samples
    let carrier_freq := msg_freq * 5
    let transmitted_signal :=
      match type with
      | .AM =>
        input_signal.map fun p =>
          let msg := p.y * (1 / msg_amp)
          let carrier := s (2 * PI * carrier_freq * p.x)
          ⟨p.x, 1 * (1 + 0.8 * msg) * carrier⟩
      | .FM =>
        input_signal.map fun p =>
          let msg := p.y * (1 / msg_amp)
          let instantaneous_phase :=
            2 * PI * carrier_freq * p.x +
              2 * PI * (carrier_freq * 0.5) * msg * p.x * (1 / msg_freq)
          ⟨p.x, 1 * s instantaneous_phase⟩
      | .PM =>
        input_signal.map fun p =>
          let msg := p.y * (1 / msg_amp)
          let instantaneous_phase := 2 * PI * carrier_freq * p.x + PI / 2 * msg
          ⟨p.x, 1 * s instantaneous_phase⟩
    ⟨input_signal, transmitted_signal, input_signal⟩

/-- Fuel bound for the sample-tick loops: the break happens once
i * sample_interval exceeds real_duration, after at most
floor(real_duration / sample_interval) + 1 iterations. -/
def tickFuel (sample_interval real_duration : ℚ) : ℕ :=
  (⌊real_duration / sample_interval⌋).toNat + 2

/-- PCM sample loop: at tick i the raw time is i * sample_interval; the
loop breaks when it exceeds real_duration, otherwise rounds the time to
1e-6, interpolates the base signal, normalizes, quantizes with
round-half-away-from-zero, reconstructs, and pushes one transmitted and
one output point. -/
def pcmLoop (input_signal : List Point)
    (sample_interval real_duration inv_amp inv_quant_range quant_range amp : ℚ) :
    ℕ → ℕ → List Point × List Point
  | 0, _ => ([], [])
  | fuel + 1, i =>
    let t0 : ℚ := (i : ℚ) * sample_interval
    if real_duration < t0 then ([], [])
    else
      let t := round6 t0
      let input_val := get_input_value_at_time input_signal t
      let normalized := (input_val * inv_amp + 1) * 0.5
      let quantized := roundAway (normalized * quant_range)
      let reconstructed := (quantized * inv_quant_range * 2 - 1) * amp
      let rest := pcmLoop input_signal sample_interval real_duration inv_amp
        inv_quant_range quant_range amp fuel (i + 1)
      (⟨t, quantized⟩ :: rest.1, ⟨t, reconstructed⟩ :: rest.2)

/-- The core PCM transform AnalogToDigitalPCM of SignalLib.cpp: 2.0 s of
base signal at 100 samples per second, then the PCM sample loop bounded
by the x of the last base-signal point. -/
def AnalogToDigitalPCM (s : ℚ → ℚ) (freq amp : ℚ) (config : PCMConfig) :
    SignalResult :=
  if freq ≤ 0 ∨ amp ≤ 0 ∨ config.sampling_rate ≤ 0 ∨
      config.quantization_levels < 2 then emptyResult
  else
    let total_samples : ℕ := 200
    let input_signal := analogInputSignal s freq amp 100 total_samples
    let sample_interval := 1 / config.sampling_rate
    let real_duration := (input_signal.getLastD ⟨0, 0⟩).x
    let inv_amp := 1 / amp
    let quant_range : ℚ := (config.quantization_levels : ℚ) - 1
    let r := pcmLoop input_signal sample_interval real_duration inv_amp
      (1 / quant_range) quant_range amp (tickFuel sample_interval real_duration) 0
    ⟨input_signal, r.1, r.2⟩

/-- Delta-modulation sample loop: same tick stepping as PCM; emits bit 1
iff the interpolated input exceeds the running approximation, updates the
approximation by plus or minus delta and clamps it, and appends to the
output accumulator a pre-point at t - 0.001 holding the previous last y
(when the accumulator is nonempty) followed by the new approximation
point at t.  Returns the transmitted list and the final accumulator. -/
def dmLoop (input_signal : List Point)
    (sample_interval real_duration delta min_approx max_approx : ℚ) :
    ℕ → ℕ → ℚ → List Point → List Point × List Point
  | 0, _, _, acc => ([], acc)
  | fuel + 1, i, approximation, acc =>
    let t0 : ℚ := (i : ℚ) * sample_interval
    if real_duration < t0 then ([], acc)
    else
      let t := round6 t0
      let input_val := get_input_value_at_time input_signal t
      let bit : ℚ := if approximation < input_val then 1 else 0
      let a1 := approximation + (if bit = 1 then delta else -delta)
      let a2 := max min_approx (min max_approx a1)
      let acc1 := if acc.isEmpty then acc
        else acc ++ [⟨t - 0.001, (acc.getLastD ⟨0, 0⟩).y⟩]
      let acc2 := acc1 ++ [⟨t, a2⟩]
      let rest := dmLoop input_signal sample_interval real_duration delta
        min_approx max_approx fuel (i + 1) a2 acc2
      (⟨t, bit⟩ :: rest.1, rest.2)

/-- The core delta-modulation transform AnalogToDigitalDM of
SignalLib.cpp: base signal as for PCM, approximation seeded with the
point (0, 0), then the sample loop, then one final point repeating the
last output y at the x of the last base-signal point. -/
def AnalogToDigitalDM (s : ℚ → ℚ) (freq amp : ℚ) (config : DMConfig) :
    SignalResult :=
  if freq ≤ 0 ∨ amp ≤ 0 ∨ config.sampling_rate ≤ 0 ∨
      config.delta_step_size ≤ 0 ∨ 1 < config.delta_step_size then emptyResult
  else
    let total_samples : ℕ := 200
    let input_signal := analogInputSignal s freq amp 100 total_samples
    let delta := amp * config.delta_step_size
    let sample_interval := 1 / config.sampling_rate
    let real_duration := (input_signal.getLastD ⟨0, 0⟩).x
    let min_approx := -amp * 1.5
    let max_approx := amp * 1.5
    let r := dmLoop input_signal sample_interval real_duration delta min_approx
      max_approx (tickFuel sample_interval real_duration) 0 0 [⟨0, 0⟩]
    let output := if r.2.isEmpty then r.2
      else r.2 ++ [⟨(input_signal.getLastD ⟨0, 0⟩).x, (r.2.getLastD ⟨0, 0⟩).y⟩]
    ⟨input_signal, r.1, output⟩

end SignalLib

/-!
Transport-layer handlers of service_impl.cpp.  The file re-implements the
whole engine next to its own copies of the Point struct, the PI constant
and the interpolation helper; the handlers return a gRPC Status and fill
a reply envelope.  The envelope copy set_data_points is pointwise, so the
reply holds the same three sequences; a non-OK Status is modelled as an
Except error carrying the status message.  The local Point struct of
service_impl.cpp has the same two double fields as the core one and is
modelled by the same Lean structure.
-/

namespace ServiceImpl

open SignalLib (Point PI roundAway round6 tickFuel AnalogModulation
  DigitalModulation LineCoding PCMConfig DMConfig)

/-- Reply envelope: the three point sequences the handler writes. -/
structure SignalResponse where
  input : List Point
  transmitted : List Point
  output : List Point
deriving DecidableEq, Repr

/-- The duplicated interpolation helper of service_impl.cpp. -/
def get_input_value_at_time (input_signal : List Point) (time : ℚ) : ℚ :=
  match input_signal with
  | [] => 0
  | p₀ :: rest =>
    let l := p₀ :: rest
    let front := p₀
    let back := l.getLast (List.cons_ne_nil _ _)
    if time ≤ front.x then front.y
    else if back.x ≤ time then back.y
    else
      let i := SignalLib.lowerBoundIdx l time
      if i = 0 then p₀.y
      else
        let p2 := l.getD i ⟨0, 0⟩
        let p1 := l.getD (i - 1) ⟨0, 0⟩
        if p2.x = p1.x then p1.y
        else p1.y + (time - p1.x) / (p2.x - p1.x) * (p2.y - p1.y)

/-- Duplicated analog base-signal loop of the handlers. -/
def analogInputSignal (s : ℚ → ℚ) (freq amp : ℚ) (samples_per_sec : ℕ)
    (total_samples : ℕ) : List Point :=
  (List.range total_samples).map fun (i : ℕ) =>
    let t : ℚ := (i : ℚ) * (1 / (samples_per_sec : ℚ))
    ⟨t, amp * s (2 * PI * freq * t)⟩

/-- Handler AnalogToAnalog of SignalConversionServiceImpl. -/
def AnalogToAnalogHandler (s : ℚ → ℚ) (msg_freq msg_amp : ℚ)
    (algorithm : AnalogModulation) : Except String SignalResponse :=
  if msg_freq ≤ 0 ∨ msg_amp ≤ 0 then
    .error "Frequency and amplitude must be positive"
  else
    let total_samples : ℕ := 400
    let input_signal := analogInputSignal s msg_freq msg_amp 200 total_samples
    let carrier_freq := msg_freq * 5
    let transmitted_signal :=
      match algorithm with
      | .AM =>
        input_signal.map fun p =>
          let msg := p.y * (1 / msg_amp)
          let carrier := s (2 * PI * carrier_freq * p.x)
          ⟨p.x, 1 * (1 + 0.8 * msg) * carrier⟩
      | .FM =>
        input_signal.map fun p =>
          let msg := p.y * (1 / msg_amp)
          let instantaneous_phase :=
            2 * PI * carrier_freq * p.x +
              2 * PI * (carrier_freq * 0.5) * msg * p.x * (1 / msg_freq)
          ⟨p.x, 1 * s instantaneous_phase⟩
      | .PM =>
        input_signal.map fun p =>
          let msg := p.y * (1 / msg_amp)
          let instantaneous_phase := 2 * PI * carrier_freq * p.x + PI / 2 * msg
          ⟨p.x, 1 * s instantaneous_phase⟩
    .ok ⟨input_signal, transmitted_signal, input_signal⟩

/-- Duplicated PCM sample loop of the AnalogToDigital handler. -/
def pcmLoop (input_signal : List Point)
    (sample_interval real_duration inv_amp inv_quant_range quant_range amp : ℚ) :
    ℕ → ℕ → List Point × List Point
  | 0, _ => ([], [])
  | fuel + 1, i =>
    let t0 : ℚ := (i : ℚ) * sample_interval
    if real_duration < t0 then ([], [])
    else
      let t := round6 t0
      let input_val := get_input_value_at_time input_signal t
      let normalized := (input_val * inv_amp + 1) * 0.5
      let quantized := roundAway (normalized * quant_range)
      let reconstructed := (quantized * inv_quant_range * 2 - 1) * amp
      let rest := pcmLoop input_signal sample_interval real_duration inv_amp
        inv_quant_range quant_range amp fuel (i + 1)
      (⟨t, quantized⟩ :: rest.1, ⟨t, reconstructed⟩ :: rest.2)

/-- Duplicated delta-modulation sample loop of the handler. -/
def dmLoop (input_signal : List Point)
    (sample_interval real_duration delta min_approx max_approx : ℚ) :
    ℕ → ℕ → ℚ → List Point → List Point × List Point
  | 0, _, _, acc => ([], acc)
  | fuel + 1, i, approximation, acc =>
    let t0 : ℚ := (i : ℚ) * sample_interval
    if real_duration < t0 then ([], acc)
    else
      let t := round6 t0
      let input_val := get_input_value_at_time input_signal t
      let bit : ℚ := if approximation < input_val then 1 else 0
      let a1 := approximation + (if bit = 1 then delta else -delta)
      let a2 := max min_approx (min max_approx a1)
      let acc1 := if acc.isEmpty then acc
        else acc ++ [⟨t - 0.001, (acc.getLastD ⟨0, 0⟩).y⟩]
      let acc2 := acc1 ++ [⟨t, a2⟩]
      let rest := dmLoop input_signal sample_interval real_duration delta
        min_approx max_approx fuel (i + 1) a2 acc2
      (⟨t, bit⟩ :: rest.1, rest.2)

/-- Oneof configuration of the AnalogToDigitalRequest: a PCM config, a
delta-modulation config, or neither set. -/
inductive ADCChoice where
  | pcm (config : PCMConfig)
  | dm (config : DMConfig)
  | unset
deriving DecidableEq, Repr

/-- Handler AnalogToDigital of SignalConversionServiceImpl: validates
frequency and amplitude, builds the base signal, then dispatches on the
oneof configuration. -/
def AnalogToDigitalHandler (s : ℚ → ℚ) (freq amp : ℚ) (choice : ADCChoice) :
    Except String SignalResponse :=
  if freq ≤ 0 ∨ amp ≤ 0 then .error "Invalid parameters"
  else
    let total_samples : ℕ := 200
    let input_signal := analogInputSignal s freq amp 100 total_samples
    match choice with
    | .pcm config =>
      if config.sampling_rate ≤ 0 ∨ config.quantization_levels < 2 then
        .error "Invalid PCM config"
      else
        let sample_interval := 1 / config.sampling_rate
        let real_duration := (input_signal.getLastD ⟨0, 0⟩).x
        let inv_amp := 1 / amp
        let quant_range : ℚ := (config.quantization_levels : ℚ) - 1
        let r := pcmLoop input_signal sample_interval real_duration inv_amp
          (1 / quant_range) quant_range amp
          (tickFuel sample_interval real_duration) 0
        .ok ⟨input_signal, r.1, r.2⟩
    | .dm config =>
      if config.sampling_rate ≤ 0 ∨ config.delta_step_size ≤ 0 ∨
          1 < config.delta_step_size then
        .error "Invalid DM config"
      else
        let delta := amp * config.delta_step_size
        let sample_interval := 1 / config.sampling_rate
        let real_duration := (input_signal.getLastD ⟨0, 0⟩).x
        let min_approx := -amp * 1.5
        let max_approx := amp * 1.5
        let r := dmLoop input_signal sample_interval real_duration delta
          min_approx max_approx (tickFuel sample_interval real_duration) 0 0
          [⟨0, 0⟩]
        let output := if r.2.isEmpty then r.2
          else r.2 ++ [⟨(input_signal.getLastD ⟨0, 0⟩).x, (r.2.getLastD ⟨0, 0⟩).y⟩]
        .ok ⟨input_signal, r.1, output⟩
    | .unset => .error "Missing configuration"

/-- Duplicated digital base-signal loop of the handlers. -/
def digitalInputGo (i : ℕ) (l : List Char) : List Point :=
  match l with
  | [] => []
  | c :: rest =>
    let val : ℚ := if c = '1' then 1 else 0
    ⟨(i : ℚ), val⟩ :: ⟨(i : ℚ) + 1, val⟩ :: digitalInputGo (i + 1) rest

/-- Duplicated ASK loop of the DigitalToAnalog handler. -/
def askGo (s : ℚ → ℚ) (i : ℕ) (l : List Char) : List Point :=
  match l with
  | [] => []
  | c :: rest =>
    let amplitude : ℚ := if c = '1' then 1 else 0.2
    ((List.range (100 + 1)).map fun (j : ℕ) =>
      let t : ℚ := (i : ℚ) * 1 + (j : ℚ) * (1 / 100)
      (⟨t, amplitude * s (2 * PI * 5 * t)⟩ : Point)) ++ askGo s (i + 1) rest

/-- Duplicated FSK loop of the DigitalToAnalog handler. -/
def fskGo (s : ℚ → ℚ) (i : ℕ) (l : List Char) : List Point :=
  match l with
  | [] => []
  | c :: rest =>
    let two_pi_freq : ℚ := if c = '1' then 2 * PI * 7 else 2 * PI * 3
    ((List.range (100 + 1)).map fun (j : ℕ) =>
      let t : ℚ := (i : ℚ) * 1 + (j : ℚ) * (1 / 100)
      (⟨t, s (two_pi_freq * t)⟩ : Point)) ++ fskGo s (i + 1) rest

/-- Duplicated PSK loop of the DigitalToAnalog handler. -/
def pskGo (s : ℚ → ℚ) (i : ℕ) (l : List Char) : List Point :=
  match l with
  | [] => []
  | c :: rest =>
    let phase_shift : ℚ := if c = '1' then 0 else PI
    ((List.range (100 + 1)).map fun (j : ℕ) =>
      let t : ℚ := (i : ℚ) * 1 + (j : ℚ) * (1 / 100)
      (⟨t, s (2 * PI * 5 * t + phase_shift)⟩ : Point)) ++ pskGo s (i + 1) rest

/-- Handler DigitalToAnalog of SignalConversionServiceImpl. -/
def DigitalToAnalogHandler (s : ℚ → ℚ) (binary : List Char)
    (algorithm : DigitalModulation) : Except String SignalResponse :=
  if binary.isEmpty then .error "Empty input"
  else if ¬ binary.all SignalLib.validBinaryChar then .error "Invalid binary input"
  else
    let input_signal := digitalInputGo 0 binary
    let transmitted :=
      match algorithm with
      | .ASK => askGo s 0 binary
      | .FSK => fskGo s 0 binary
      | .PSK => pskGo s 0 binary
    .ok ⟨input_signal, transmitted, input_signal⟩

/-- Duplicated NRZ-L loop of the DigitalToDigital handler. -/
def nrzlGo (i : ℕ) (l : List Char) : List Point :=
  match l with
  | [] => []
  | c :: rest =>
    let voltage : ℚ := if c = '0' then 1 else -1
    ⟨(i : ℚ), voltage⟩ :: ⟨(i : ℚ) + 1, voltage⟩ :: nrzlGo (i + 1) rest

/-- Duplicated NRZ-I loop of the DigitalToDigital handler. -/
def nrziGo (current_level : ℚ) (i : ℕ) (l : List Char) : List Point :=
  match l with
  | [] => []
  | c :: rest =>
    let lvl : ℚ := if c = '1' then -current_level else current_level
    ⟨(i : ℚ), lvl⟩ :: ⟨(i : ℚ) + 1, lvl⟩ :: nrziGo lvl (i + 1) rest

/-- Duplicated Manchester loop of the DigitalToDigital handler. -/
def manchesterGo (i : ℕ) (l : List Char) : List Point :=
  match l with
  | [] => []
  | c :: rest =>
    (if c = '0' then
      [⟨(i : ℚ), 1⟩, ⟨(i : ℚ) + 1/2, 1⟩, ⟨(i : ℚ) + 1/2, -1⟩, ⟨(i : ℚ) + 1, -1⟩]
    else
      [⟨(i : ℚ), -1⟩, ⟨(i : ℚ) + 1/2, -1⟩, ⟨(i : ℚ) + 1/2, 1⟩, ⟨(i : ℚ) + 1, 1⟩]) ++
      manchesterGo (i + 1) rest

/-- Duplicated differential Manchester loop of the handler. -/
def diffManchesterGo (current_level : ℚ) (i : ℕ) (l : List Char) : List Point :=
  match l with
  | [] => []
  | c :: rest =>
    let lvl1 : ℚ := if c = '0' then -current_level else current_level
    let lvl2 : ℚ := -lvl1
    ⟨(i : ℚ), lvl1⟩ :: ⟨(i : ℚ) + 1/2, lvl1⟩ :: ⟨(i : ℚ) + 1/2, lvl2⟩ ::
      ⟨(i : ℚ) + 1, lvl2⟩ :: diffManchesterGo lvl2 (i + 1) rest

/-- Duplicated AMI loop of the DigitalToDigital handler. -/
def amiGo (last_one_polarity : ℚ) (i : ℕ) (l : List Char) : List Point :=
  match l with
  | [] => []
  | c :: rest =>
    if c = '1' then
      ⟨(i : ℚ), -last_one_polarity⟩ :: ⟨(i : ℚ) + 1, -last_one_polarity⟩ ::
        amiGo (-last_one_polarity) (i + 1) rest
    else
      ⟨(i : ℚ), 0⟩ :: ⟨(i : ℚ) + 1, 0⟩ :: amiGo last_one_polarity (i + 1) rest

/-- Duplicated pseudoternary loop of the DigitalToDigital handler. -/
def pseudoternaryGo (last_zero_polarity : ℚ) (i : ℕ) (l : List Char) : List Point :=
  match l with
  | [] => []
  | c :: rest =>
    if c = '0' then
      ⟨(i : ℚ), -last_zero_polarity⟩ :: ⟨(i : ℚ) + 1, -last_zero_polarity⟩ ::
        pseudoternaryGo (-last_zero_polarity) (i + 1) rest
    else
      ⟨(i : ℚ), 0⟩ :: ⟨(i : ℚ) + 1, 0⟩ :: pseudoternaryGo last_zero_polarity (i + 1) rest

/-- Duplicated B8ZS loop of the DigitalToDigital handler. -/
def b8zsGo (last_one_polarity : ℚ) (i : ℕ) (l : List Char) : List Point :=
  match l with
  | [] => []
  | c :: rest =>
    if SignalLib.eightZerosAhead (c :: rest) then
      SignalLib.patternPoints i [0, 0, 0, last_one_polarity, -last_one_polarity,
          0, last_one_polarity, -last_one_polarity] ++
        b8zsGo (-last_one_polarity) (i + 8) (rest.drop 7)
    else if c = '1' then
      ⟨(i : ℚ), -last_one_polarity⟩ :: ⟨(i : ℚ) + 1, -last_one_polarity⟩ ::
        b8zsGo (-last_one_polarity) (i + 1) rest
    else
      ⟨(i : ℚ), 0⟩ :: ⟨(i : ℚ) + 1, 0⟩ :: b8zsGo last_one_polarity (i + 1) rest
termination_by l.length
decreasing_by
  all_goals simp [List.length_drop]
  all_goals omega

/-- Duplicated HDB3 loop of the DigitalToDigital handler. -/
def hdb3Go (last_one_polarity : ℚ) (ones_count : ℕ) (i : ℕ) (l : List Char) :
    List Point :=
  match l with
  | [] => []
  | c :: rest =>
    if SignalLib.fourZerosAhead (c :: rest) then
      if ones_count % 2 = 0 then
        SignalLib.patternPoints i [0, 0, 0, last_one_polarity] ++
          hdb3Go last_one_polarity 0 (i + 4) (rest.drop 3)
      else
        SignalLib.patternPoints i [-last_one_polarity, 0, 0, -last_one_polarity] ++
          hdb3Go (-last_one_polarity) 0 (i + 4) (rest.drop 3)
    else if c = '1' then
      ⟨(i : ℚ), -last_one_polarity⟩ :: ⟨(i : ℚ) + 1, -last_one_polarity⟩ ::
        hdb3Go (-last_one_polarity) (ones_count + 1) (i + 1) rest
    else
      ⟨(i : ℚ), 0⟩ :: ⟨(i : ℚ) + 1, 0⟩ ::
        hdb3Go last_one_polarity ones_count (i + 1) rest
termination_by l.length
decreasing_by
  all_goals simp [List.length_drop]
  all_goals omega

/-- Handler DigitalToDigital of SignalConversionServiceImpl. -/
def DigitalToDigitalHandler (binary : List Char) (algorithm : LineCoding) :
    Except String SignalResponse :=
  if binary.isEmpty then .error "Empty input"
  else if ¬ binary.all SignalLib.validBinaryChar then .error "Invalid binary input"
  else
    let input_signal := digitalInputGo 0 binary
    let transmitted :=
      match algorithm with
      | .NRZ_L => nrzlGo 0 binary
      | .NRZ_I => nrziGo 1 0 binary
      | .MANCHESTER => manchesterGo 0 binary
      | .DIFFERENTIAL_MANCHESTER => diffManchesterGo 1 0 binary
      | .AMI => amiGo (-1) 0 binary
      | .PSEUDOTERNARY => pseudoternaryGo (-1) 0 binary
      | .B8ZS => b8zsGo (-1) 0 binary
      | .HDB3 => hdb3Go (-1) 0 0 binary
    .ok ⟨input_signal, transmitted, input_signal⟩

end ServiceImpl

namespace SignalLib

/-- Emission-order x monotonicity of a point sequence. -/
def xMono (l : List Point) : Prop := l.Chain' (fun p q => p.x ≤ q.x)

/-- Non-negativity of every x in a point sequence. -/
def xNonneg (l : List Point) : Prop := ∀ p ∈ l, 0 ≤ p.x

/-- Both sequence invariants of the specification together. -/
def goodSeq (l : List Point) : Prop := xMono l ∧ xNonneg l

/-- The sequence invariants for all three sequences of a result. -/
def goodResult (r : SignalResult) : Prop :=
  goodSeq r.input ∧ goodSeq r.transmitted ∧ goodSeq r.output

instance : DecidablePred xMono := fun l => by
  unfold xMono; infer_instance

instance : DecidablePred xNonneg := fun l => by
  unfold xNonneg; infer_instance

instance : DecidablePred goodSeq := fun l => by
  unfold goodSeq; infer_instance

instance : DecidablePred goodResult := fun r => by
  unfold goodResult; infer_instance

/-- Auxiliary predicate for the monotonicity proofs: the sequence is
x-monotone and every x is at least a. -/
def xFrom (a : ℚ) (l : List Point) : Prop :=
  l.Chain' (fun p q => p.x ≤ q.x) ∧ ∀ p ∈ l, a ≤ p.x

end SignalLib

/-- C10: the interpolation helper get_input_value_at_time — in its core
version and in its transport-layer duplicate — returns 0.0 on the empty
point sequence at every query time. -/
theorem claim10_interp_empty_zero (t : ℚ) :
    SignalLib.get_input_value_at_time [] t = 0 ∧
      ServiceImpl.get_input_value_at_time [] t = 0 :=
  ⟨rfl, rfl⟩

/-- C7: on an empty bit string, or one holding a character other than
the characters '0' and '1', both DigitalToAnalog (every keying scheme)
and DigitalToDigital (every line-coding scheme) return the full
empty-sequence sentinel — in particular empty input and transmitted —
and the core signals the failure through no other channel, both being
total functions into SignalResult. -/
theorem claim7_invalid_binary_sentinel (s : ℚ → ℚ) (binary : List Char)
    (tyA : SignalLib.DigitalModulation) (tyD : SignalLib.LineCoding)
    (h : binary = [] ∨ ∃ c ∈ binary, c ≠ '0' ∧ c ≠ '1') :
    SignalLib.DigitalToAnalog s binary tyA = SignalLib.emptyResult ∧
      SignalLib.DigitalToDigital binary tyD = SignalLib.emptyResult := by
  have hcond : binary.isEmpty ∨ ¬ binary.all SignalLib.validBinaryChar := by
    rcases h with h | ⟨c, hc, h0, h1⟩
    · left; simp [h]
    · right
      simp only [List.all_eq_true, not_forall]
      exact ⟨c, hc, by simp [SignalLib.validBinaryChar, h0, h1]⟩
  constructor
  · simp only [SignalLib.DigitalToAnalog, if_pos hcond]
  · simp only [SignalLib.DigitalToDigital, if_pos hcond]

/-- Witness for C7 at the concrete invalid string "1a". -/
theorem claim7_witness :
    (['1', 'a'] = ([] : List Char) ∨ ∃ c ∈ ['1', 'a'], c ≠ '0' ∧ c ≠ '1') ∧
      SignalLib.DigitalToAnalog (fun _ => 0) ['1', 'a'] .ASK =
        SignalLib.emptyResult ∧
      SignalLib.DigitalToDigital ['1', 'a'] .AMI = SignalLib.emptyResult :=
  ⟨by decide, claim7_invalid_binary_sentinel (fun _ => 0) ['1', 'a'] .ASK .AMI
    (by decide)⟩

/-- C6: for positive frequency and amplitude, every analog modulator
returns an output sequence equal to its input sequence, and a transmitted
sequence of the same length as the input, namely 400 points. -/
theorem claim6_analog_modulators (s : ℚ → ℚ) (msg_freq msg_amp : ℚ)
    (ty : SignalLib.AnalogModulation) (hf : 0 < msg_freq) (ha : 0 < msg_amp) :
    (SignalLib.AnalogToAnalog s msg_freq msg_amp ty).output =
      (SignalLib.AnalogToAnalog s msg_freq msg_amp ty).input ∧
    (SignalLib.AnalogToAnalog s msg_freq msg_amp ty).transmitted.length =
      (SignalLib.AnalogToAnalog s msg_freq msg_amp ty).input.length ∧
    (SignalLib.AnalogToAnalog s msg_freq msg_amp ty).input.length = 400 := by
  have hcond : ¬ (msg_freq ≤ 0 ∨ msg_amp ≤ 0) := by
    push_neg; exact ⟨hf, ha⟩
  simp only [SignalLib.AnalogToAnalog, if_neg hcond]
  cases ty <;>
    exact ⟨trivial, by simp only [List.length_map],
      by simp only [SignalLib.analogInputSignal, List.length_map,
        List.length_range]⟩

/-- Witness for C6 at frequency 1, amplitude 1, scheme AM. -/
theorem claim6_witness :
    (0 : ℚ) < 1 ∧
      ((SignalLib.AnalogToAnalog (fun _ => 0) 1 1 .AM).output =
        (SignalLib.AnalogToAnalog (fun _ => 0) 1 1 .AM).input ∧
      (SignalLib.AnalogToAnalog (fun _ => 0) 1 1 .AM).transmitted.length =
        (SignalLib.AnalogToAnalog (fun _ => 0) 1 1 .AM).input.length ∧
      (SignalLib.AnalogToAnalog (fun _ => 0) 1 1 .AM).input.length = 400) :=
  ⟨by norm_num,
    claim6_analog_modulators (fun _ => 0) 1 1 .AM (by norm_num) (by norm_num)⟩

/-- C3: the B8ZS coder follows the AMI rule except that with eight
consecutive '0' characters at the cursor it substitutes the pattern
{0,0,0,V,B,0,V,B} with V the current polarity and B = -V, advances the
cursor by 8 bits and continues with running polarity B (first conjunct);
with no eight-zero run at the cursor it performs the plain AMI step
(second conjunct); consequently on eight zeros preceded by a mark of
polarity P the substituted pattern is exactly {0,0,0,P,-P,0,P,-P}
(third conjunct). -/
theorem claim3_b8zs_substitution :
    (∀ (pol : ℚ) (i : ℕ) (rest : List Char),
      SignalLib.b8zsGo pol i (List.replicate 8 '0' ++ rest) =
        SignalLib.patternPoints i [0, 0, 0, pol, -pol, 0, pol, -pol] ++
          SignalLib.b8zsGo (-pol) (i + 8) rest) ∧
    (∀ (pol : ℚ) (i : ℕ) (c : Char) (rest : List Char),
      ¬ SignalLib.eightZerosAhead (c :: rest) = true →
        SignalLib.b8zsGo pol i (c :: rest) =
          if c = '1' then
            ⟨(i : ℚ), -pol⟩ :: ⟨(i : ℚ) + 1, -pol⟩ ::
              SignalLib.b8zsGo (-pol) (i + 1) rest
          else
            ⟨(i : ℚ), 0⟩ :: ⟨(i : ℚ) + 1, 0⟩ ::
              SignalLib.b8zsGo pol (i + 1) rest) ∧
    (∀ (P : ℚ) (i : ℕ) (rest : List Char),
      SignalLib.b8zsGo (-P) i ('1' :: (List.replicate 8 '0' ++ rest)) =
        ⟨(i : ℚ), P⟩ :: ⟨(i : ℚ) + 1, P⟩ ::
          (SignalLib.patternPoints (i + 1) [0, 0, 0, P, -P, 0, P, -P] ++
            SignalLib.b8zsGo (-P) (i + 1 + 8) rest)) := by
  have hsub : ∀ (pol : ℚ) (i : ℕ) (rest : List Char),
      SignalLib.b8zsGo pol i (List.replicate 8 '0' ++ rest) =
        SignalLib.patternPoints i [0, 0, 0, pol, -pol, 0, pol, -pol] ++
          SignalLib.b8zsGo (-pol) (i + 8) rest := by
    intro pol i rest
    have hrepl : (List.replicate 8 '0' ++ rest : List Char) =
        '0' :: (List.replicate 7 '0' ++ rest) := by
      simp [List.replicate_succ]
    have hguard : SignalLib.eightZerosAhead
        ('0' :: (List.replicate 7 '0' ++ rest)) = true := by
      simp [SignalLib.eightZerosAhead, List.take, List.replicate_succ]
    rw [hrepl, SignalLib.b8zsGo, if_pos hguard]
    have hdrop : (List.drop 7 (List.replicate 7 '0' ++ rest) : List Char) = rest := rfl
    rw [hdrop]
  refine ⟨hsub, ?_, ?_⟩
  · intro pol i c rest hguard
    rw [SignalLib.b8zsGo, if_neg hguard]
  · intro P i rest
    have hguard : ¬ SignalLib.eightZerosAhead
        ('1' :: (List.replicate 8 '0' ++ rest)) = true := by
      simp [SignalLib.eightZerosAhead, List.take]
    rw [SignalLib.b8zsGo, if_neg hguard, if_pos rfl, neg_neg, hsub]

/-- Witness for C3: its second conjunct has a lookahead hypothesis,
discharged here at polarity -1, cursor 0, on the bit string "1". -/
theorem claim3_witness :
    (¬ SignalLib.eightZerosAhead ['1'] = true) ∧
      SignalLib.b8zsGo (-1) 0 ['1'] =
        (if ('1' : Char) = '1' then
          ⟨((0 : ℕ) : ℚ), -(-1)⟩ :: ⟨((0 : ℕ) : ℚ) + 1, -(-1)⟩ ::
            SignalLib.b8zsGo (-(-1)) (0 + 1) []
        else
          ⟨((0 : ℕ) : ℚ), 0⟩ :: ⟨((0 : ℕ) : ℚ) + 1, 0⟩ ::
            SignalLib.b8zsGo (-1) (0 + 1) []) :=
  ⟨by decide, claim3_b8zs_substitution.2.1 (-1) 0 '1' [] (by decide)⟩

/-- C4: the HDB3 coder follows the AMI rule except that with four
consecutive '0' characters at the cursor it substitutes a pattern chosen
by the parity of the marks counted since the last substitution — even
parity gives {0,0,0,V} with V the running polarity kept, odd parity
gives {B,0,0,V} with B = V = the negation of the last mark polarity —
then advances the cursor by 4 bits and resets the mark counter to zero
(first and second conjuncts); with no four-zero run at the cursor it
performs the plain AMI step, counting marks (third conjunct). -/
theorem claim4_hdb3_substitution :
    (∀ (pol : ℚ) (cnt i : ℕ) (rest : List Char), cnt % 2 = 0 →
      SignalLib.hdb3Go pol cnt i (List.replicate 4 '0' ++ rest) =
        SignalLib.patternPoints i [0, 0, 0, pol] ++
          SignalLib.hdb3Go pol 0 (i + 4) rest) ∧
    (∀ (pol : ℚ) (cnt i : ℕ) (rest : List Char), cnt % 2 = 1 →
      SignalLib.hdb3Go pol cnt i (List.replicate 4 '0' ++ rest) =
        SignalLib.patternPoints i [-pol, 0, 0, -pol] ++
          SignalLib.hdb3Go (-pol) 0 (i + 4) rest) ∧
    (∀ (pol : ℚ) (cnt i : ℕ) (c : Char) (rest : List Char),
      ¬ SignalLib.fourZerosAhead (c :: rest) = true →
        SignalLib.hdb3Go pol cnt i (c :: rest) =
          if c = '1' then
            ⟨(i : ℚ), -pol⟩ :: ⟨(i : ℚ) + 1, -pol⟩ ::
              SignalLib.hdb3Go (-pol) (cnt + 1) (i + 1) rest
          else
            ⟨(i : ℚ), 0⟩ :: ⟨(i : ℚ) + 1, 0⟩ ::
              SignalLib.hdb3Go pol cnt (i + 1) rest) := by
  have hrepl : ∀ rest : List Char, (List.replicate 4 '0' ++ rest : List Char) =
      '0' :: (List.replicate 3 '0' ++ rest) := by
    intro rest; simp [List.replicate_succ]
  have hguard : ∀ rest : List Char, SignalLib.fourZerosAhead
      ('0' :: (List.replicate 3 '0' ++ rest)) = true := by
    intro rest
    simp [SignalLib.fourZerosAhead, List.take, List.replicate_succ]
  have hdrop : ∀ rest : List Char,
      (List.drop 3 (List.replicate 3 '0' ++ rest) : List Char) = rest :=
    fun _ => rfl
  refine ⟨?_, ?_, ?_⟩
  · intro pol cnt i rest hcnt
    rw [hrepl, SignalLib.hdb3Go, if_pos (hguard rest), if_pos hcnt, hdrop]
  · intro pol cnt i rest hcnt
    have hcnt' : ¬ cnt % 2 = 0 := by omega
    rw [hrepl, SignalLib.hdb3Go, if_pos (hguard rest), if_neg hcnt', hdrop]
  · intro pol cnt i c rest hguard4
    rw [SignalLib.hdb3Go, if_neg hguard4]

/-- Witness for C4: all three conjuncts carry hypotheses; discharged at
polarity 1, counters 0 and 1, cursor 0, on concrete short bit strings. -/
theorem claim4_witness :
    ((0 : ℕ) % 2 = 0 ∧
      SignalLib.hdb3Go 1 0 0 (List.replicate 4 '0' ++ []) =
        SignalLib.patternPoints 0 [0, 0, 0, 1] ++ SignalLib.hdb3Go 1 0 (0 + 4) []) ∧
    ((1 : ℕ) % 2 = 1 ∧
      SignalLib.hdb3Go 1 1 0 (List.replicate 4 '0' ++ []) =
        SignalLib.patternPoints 0 [-1, 0, 0, -1] ++
          SignalLib.hdb3Go (-1) 0 (0 + 4) []) ∧
    ((¬ SignalLib.fourZerosAhead ['1'] = true) ∧
      SignalLib.hdb3Go 1 0 0 ['1'] =
        if ('1' : Char) = '1' then
          ⟨((0 : ℕ) : ℚ), -1⟩ :: ⟨((0 : ℕ) : ℚ) + 1, -1⟩ ::
            SignalLib.hdb3Go (-1) (0 + 1) (0 + 1) []
        else
          ⟨((0 : ℕ) : ℚ), 0⟩ :: ⟨((0 : ℕ) : ℚ) + 1, 0⟩ ::
            SignalLib.hdb3Go 1 0 (0 + 1) []) :=
  ⟨⟨rfl, claim4_hdb3_substitution.1 1 0 0 [] rfl⟩,
   ⟨rfl, claim4_hdb3_substitution.2.1 1 1 0 [] rfl⟩,
   ⟨by decide, claim4_hdb3_substitution.2.2 1 0 0 '1' [] (by decide)⟩⟩

/-- The two copies of the interpolation helper agree on every input. -/
lemma giv_eq (l : List SignalLib.Point) (t : ℚ) :
    ServiceImpl.get_input_value_at_time l t =
      SignalLib.get_input_value_at_time l t := by
  cases l <;> rfl

/-- The two copies of the analog base-signal loop agree. -/
lemma analogInputSignal_eq (s : ℚ → ℚ) (freq amp : ℚ) (sps n : ℕ) :
    ServiceImpl.analogInputSignal s freq amp sps n =
      SignalLib.analogInputSignal s freq amp sps n := rfl

/-- The two copies of the PCM sample loop agree. -/
lemma pcmLoop_eq (input_signal : List SignalLib.Point) (a b c d e f : ℚ) :
    ∀ fuel i, ServiceImpl.pcmLoop input_signal a b c d e f fuel i =
      SignalLib.pcmLoop input_signal a b c d e f fuel i := by
  intro fuel
  induction fuel with
  | zero => intro i; rfl
  | succ n ih =>
    intro i
    simp only [ServiceImpl.pcmLoop, SignalLib.pcmLoop, giv_eq, ih]

/-- The two copies of the delta-modulation sample loop agree. -/
lemma dmLoop_eq (input_signal : List SignalLib.Point) (a b c d e : ℚ) :
    ∀ fuel i approx acc, ServiceImpl.dmLoop input_signal a b c d e fuel i approx acc =
      SignalLib.dmLoop input_signal a b c d e fuel i approx acc := by
  intro fuel
  induction fuel with
  | zero => intro i approx acc; rfl
  | succ n ih =>
    intro i approx acc
    simp only [ServiceImpl.dmLoop, SignalLib.dmLoop, giv_eq, ih]

/-- The two copies of the digital base-signal loop agree. -/
lemma digitalInputGo_eq : ∀ (l : List Char) (i : ℕ),
    ServiceImpl.digitalInputGo i l = SignalLib.digitalInputGo i l := by
  intro l
  induction l with
  | nil => intro i; rfl
  | cons c rest ih =>
    intro i
    simp only [ServiceImpl.digitalInputGo, SignalLib.digitalInputGo, ih]

/-- The two copies of the ASK loop agree. -/
lemma askGo_eq (s : ℚ → ℚ) : ∀ (l : List Char) (i : ℕ),
    ServiceImpl.askGo s i l = SignalLib.askGo s i l := by
  intro l
  induction l with
  | nil => intro i; rfl
  | cons c rest ih =>
    intro i
    simp only [ServiceImpl.askGo, SignalLib.askGo, SignalLib.askBit, ih]

/-- The two copies of the FSK loop agree. -/
lemma fskGo_eq (s : ℚ → ℚ) : ∀ (l : List Char) (i : ℕ),
    ServiceImpl.fskGo s i l = SignalLib.fskGo s i l := by
  intro l
  induction l with
  | nil => intro i; rfl
  | cons c rest ih =>
    intro i
    simp only [ServiceImpl.fskGo, SignalLib.fskGo, SignalLib.fskBit, ih]

/-- The two copies of the PSK loop agree. -/
lemma pskGo_eq (s : ℚ → ℚ) : ∀ (l : List Char) (i : ℕ),
    ServiceImpl.pskGo s i l = SignalLib.pskGo s i l := by
  intro l
  induction l with
  | nil => intro i; rfl
  | cons c rest ih =>
    intro i
    simp only [ServiceImpl.pskGo, SignalLib.pskGo, SignalLib.pskBit, ih]

/-- The two copies of the NRZ-L loop agree. -/
lemma nrzlGo_eq : ∀ (l : List Char) (i : ℕ),
    ServiceImpl.nrzlGo i l = SignalLib.nrzlGo i l := by
  intro l
  induction l with
  | nil => intro i; rfl
  | cons c rest ih =>
    intro i
    simp only [ServiceImpl.nrzlGo, SignalLib.nrzlGo, ih]

/-- The two copies of the NRZ-I loop agree. -/
lemma nrziGo_eq : ∀ (l : List Char) (lvl : ℚ) (i : ℕ),
    ServiceImpl.nrziGo lvl i l = SignalLib.nrziGo lvl i l := by
  intro l
  induction l with
  | nil => intro lvl i; rfl
  | cons c rest ih =>
    intro lvl i
    simp only [ServiceImpl.nrziGo, SignalLib.nrziGo, ih]

/-- The two copies of the Manchester loop agree. -/
lemma manchesterGo_eq : ∀ (l : List Char) (i : ℕ),
    ServiceImpl.manchesterGo i l = SignalLib.manchesterGo i l := by
  intro l
  induction l with
  | nil => intro i; rfl
  | cons c rest ih =>
    intro i
    simp only [ServiceImpl.manchesterGo, SignalLib.manchesterGo, ih]

/-- The two copies of the differential Manchester loop agree. -/
lemma diffManchesterGo_eq : ∀ (l : List Char) (lvl : ℚ) (i : ℕ),
    ServiceImpl.diffManchesterGo lvl i l = SignalLib.diffManchesterGo lvl i l := by
  intro l
  induction l with
  | nil => intro lvl i; rfl
  | cons c rest ih =>
    intro lvl i
    simp only [ServiceImpl.diffManchesterGo, SignalLib.diffManchesterGo, ih]

/-- The two copies of the AMI loop agree. -/
lemma amiGo_eq : ∀ (l : List Char) (pol : ℚ) (i : ℕ),
    ServiceImpl.amiGo pol i l = SignalLib.amiGo pol i l := by
  intro l
  induction l with
  | nil => intro pol i; rfl
  | cons c rest ih =>
    intro pol i
    simp only [ServiceImpl.amiGo, SignalLib.amiGo, ih]

/-- The two copies of the pseudoternary loop agree. -/
lemma pseudoternaryGo_eq : ∀ (l : List Char) (pol : ℚ) (i : ℕ),
    ServiceImpl.pseudoternaryGo pol i l = SignalLib.pseudoternaryGo pol i l := by
  intro l
  induction l with
  | nil => intro pol i; rfl
  | cons c rest ih =>
    intro pol i
    simp only [ServiceImpl.pseudoternaryGo, SignalLib.pseudoternaryGo, ih]

/-- The two copies of the B8ZS loop agree. -/
lemma b8zsGo_eq : ∀ (n : ℕ) (l : List Char), l.length ≤ n → ∀ (pol : ℚ) (i : ℕ),
    ServiceImpl.b8zsGo pol i l = SignalLib.b8zsGo pol i l := by
  intro n
  induction n with
  | zero =>
    intro l hl pol i
    have : l = [] := List.eq_nil_of_length_eq_zero (Nat.le_zero.mp hl)
    subst this; rw [ServiceImpl.b8zsGo, SignalLib.b8zsGo]
  | succ n ih =>
    intro l hl pol i
    match l with
    | [] => rw [ServiceImpl.b8zsGo, SignalLib.b8zsGo]
    | c :: rest =>
      rw [ServiceImpl.b8zsGo, SignalLib.b8zsGo]
      have hlen : rest.length ≤ n := by
        simp only [List.length_cons] at hl; omega
      by_cases h8 : SignalLib.eightZerosAhead (c :: rest) = true
      · rw [if_pos h8, if_pos h8,
          ih (rest.drop 7) (by simp only [List.length_drop]; omega)]
      · rw [if_neg h8, if_neg h8]
        by_cases hc : c = '1'
        · rw [if_pos hc, if_pos hc, ih rest hlen]
        · rw [if_neg hc, if_neg hc, ih rest hlen]

/-- The two copies of the HDB3 loop agree. -/
lemma hdb3Go_eq : ∀ (n : ℕ) (l : List Char), l.length ≤ n →
    ∀ (pol : ℚ) (cnt i : ℕ),
    ServiceImpl.hdb3Go pol cnt i l = SignalLib.hdb3Go pol cnt i l := by
  intro n
  induction n with
  | zero =>
    intro l hl pol cnt i
    have : l = [] := List.eq_nil_of_length_eq_zero (Nat.le_zero.mp hl)
    subst this; rw [ServiceImpl.hdb3Go, SignalLib.hdb3Go]
  | succ n ih =>
    intro l hl pol cnt i
    match l with
    | [] => rw [ServiceImpl.hdb3Go, SignalLib.hdb3Go]
    | c :: rest =>
      rw [ServiceImpl.hdb3Go, SignalLib.hdb3Go]
      have hlen : rest.length ≤ n := by
        simp only [List.length_cons] at hl; omega
      by_cases h4 : SignalLib.fourZerosAhead (c :: rest) = true
      · rw [if_pos h4, if_pos h4]
        by_cases hcnt : cnt % 2 = 0
        · rw [if_pos hcnt, if_pos hcnt,
            ih (rest.drop 3) (by simp only [List.length_drop]; omega)]
        · rw [if_neg hcnt, if_neg hcnt,
            ih (rest.drop 3) (by simp only [List.length_drop]; omega)]
      · rw [if_neg h4, if_neg h4]
        by_cases hc : c = '1'
        · rw [if_pos hc, if_pos hc, ih rest hlen]
        · rw [if_neg hc, if_neg hc, ih rest hlen]

/-- Projection of a core result bundle onto the reply envelope, copying
the three point sequences as set_data_points does. -/
def toResponse (r : SignalLib.SignalResult) : ServiceImpl.SignalResponse :=
  ⟨r.input, r.transmitted, r.output⟩

/-- C1: for every valid input — same scalar parameters and same scheme
selector — the point sequences the transport-layer handlers of
service_impl.cpp write into the reply envelope are identical to the
sequences returned by the corresponding core transform of SignalLib.cpp,
for all four operations: AnalogToAnalog, AnalogToDigital in its PCM and
delta-modulation branches, DigitalToAnalog and DigitalToDigital. -/
theorem claim1_service_equals_core :
    (∀ (s : ℚ → ℚ) (mf ma : ℚ) (ty : SignalLib.AnalogModulation),
      0 < mf → 0 < ma →
      ServiceImpl.AnalogToAnalogHandler s mf ma ty =
        .ok (toResponse (SignalLib.AnalogToAnalog s mf ma ty))) ∧
    (∀ (s : ℚ → ℚ) (f a : ℚ) (cfg : SignalLib.PCMConfig),
      0 < f → 0 < a → 0 < cfg.sampling_rate → 2 ≤ cfg.quantization_levels →
      ServiceImpl.AnalogToDigitalHandler s f a (.pcm cfg) =
        .ok (toResponse (SignalLib.AnalogToDigitalPCM s f a cfg))) ∧
    (∀ (s : ℚ → ℚ) (f a : ℚ) (cfg : SignalLib.DMConfig),
      0 < f → 0 < a → 0 < cfg.sampling_rate → 0 < cfg.delta_step_size →
      cfg.delta_step_size ≤ 1 →
      ServiceImpl.AnalogToDigitalHandler s f a (.dm cfg) =
        .ok (toResponse (SignalLib.AnalogToDigitalDM s f a cfg))) ∧
    (∀ (s : ℚ → ℚ) (bin : List Char) (ty : SignalLib.DigitalModulation),
      bin ≠ [] → bin.all SignalLib.validBinaryChar = true →
      ServiceImpl.DigitalToAnalogHandler s bin ty =
        .ok (toResponse (SignalLib.DigitalToAnalog s bin ty))) ∧
    (∀ (bin : List Char) (ty : SignalLib.LineCoding),
      bin ≠ [] → bin.all SignalLib.validBinaryChar = true →
      ServiceImpl.DigitalToDigitalHandler bin ty =
        .ok (toResponse (SignalLib.DigitalToDigital bin ty))) := by
  refine ⟨?_, ?_, ?_, ?_, ?_⟩
  · intro s mf ma ty hf ha
    have hcond : ¬ (mf ≤ 0 ∨ ma ≤ 0) := by push_neg; exact ⟨hf, ha⟩
    simp only [ServiceImpl.AnalogToAnalogHandler, SignalLib.AnalogToAnalog,
      if_neg hcond, analogInputSignal_eq, toResponse]
  · intro s f a cfg hf ha hsr hql
    have hc1 : ¬ (f ≤ 0 ∨ a ≤ 0) := by push_neg; exact ⟨hf, ha⟩
    have hc2 : ¬ (cfg.sampling_rate ≤ 0 ∨ cfg.quantization_levels < 2) := by
      push_neg; exact ⟨hsr, hql⟩
    have hc3 : ¬ (f ≤ 0 ∨ a ≤ 0 ∨ cfg.sampling_rate ≤ 0 ∨
        cfg.quantization_levels < 2) := by
      push_neg; exact ⟨hf, ha, hsr, hql⟩
    simp only [ServiceImpl.AnalogToDigitalHandler, SignalLib.AnalogToDigitalPCM,
      if_neg hc1, if_neg hc2, if_neg hc3, analogInputSignal_eq, pcmLoop_eq,
      toResponse]
  · intro s f a cfg hf ha hsr hst hst1
    have hc1 : ¬ (f ≤ 0 ∨ a ≤ 0) := by push_neg; exact ⟨hf, ha⟩
    have hc2 : ¬ (cfg.sampling_rate ≤ 0 ∨ cfg.delta_step_size ≤ 0 ∨
        1 < cfg.delta_step_size) := by
      push_neg; exact ⟨hsr, hst, hst1⟩
    have hc3 : ¬ (f ≤ 0 ∨ a ≤ 0 ∨ cfg.sampling_rate ≤ 0 ∨
        cfg.delta_step_size ≤ 0 ∨ 1 < cfg.delta_step_size) := by
      push_neg; exact ⟨hf, ha, hsr, hst, hst1⟩
    simp only [ServiceImpl.AnalogToDigitalHandler, SignalLib.AnalogToDigitalDM,
      if_neg hc1, if_neg hc2, if_neg hc3, analogInputSignal_eq, dmLoop_eq,
      toResponse]
  · intro s bin ty hne hall
    have hempty : bin.isEmpty = false := by
      cases bin with
      | nil => exact absurd rfl hne
      | cons c r => rfl
    have hcond : ¬ (bin.isEmpty = true ∨
        ¬ bin.all SignalLib.validBinaryChar = true) := by
      simp [hempty, hall]
    simp only [ServiceImpl.DigitalToAnalogHandler, SignalLib.DigitalToAnalog,
      hempty, hall, if_neg hcond, Bool.false_eq_true, if_false, not_true,
      toResponse]
    cases ty <;>
      simp [digitalInputGo_eq, askGo_eq, fskGo_eq, pskGo_eq]
  · intro bin ty hne hall
    have hempty : bin.isEmpty = false := by
      cases bin with
      | nil => exact absurd rfl hne
      | cons c r => rfl
    have hcond : ¬ (bin.isEmpty = true ∨
        ¬ bin.all SignalLib.validBinaryChar = true) := by
      simp [hempty, hall]
    simp only [ServiceImpl.DigitalToDigitalHandler, SignalLib.DigitalToDigital,
      hempty, hall, if_neg hcond, Bool.false_eq_true, if_false, not_true,
      toResponse]
    cases ty <;>
      simp [digitalInputGo_eq, nrzlGo_eq, nrziGo_eq, manchesterGo_eq,
        diffManchesterGo_eq, amiGo_eq, pseudoternaryGo_eq,
        b8zsGo_eq bin.length bin le_rfl, hdb3Go_eq bin.length bin le_rfl]

/-- Witness for C1, at frequency 1, amplitude 1, sampling rate 1,
quantization 2 levels, step size 1, bit string "10". -/
theorem claim1_witness :
    ((0 : ℚ) < 1 ∧
      ServiceImpl.AnalogToAnalogHandler (fun _ => 0) 1 1 .AM =
        .ok (toResponse (SignalLib.AnalogToAnalog (fun _ => 0) 1 1 .AM))) ∧
    (ServiceImpl.AnalogToDigitalHandler (fun _ => 0) 1 1 (.pcm ⟨1, 2⟩) =
      .ok (toResponse (SignalLib.AnalogToDigitalPCM (fun _ => 0) 1 1 ⟨1, 2⟩))) ∧
    (ServiceImpl.AnalogToDigitalHandler (fun _ => 0) 1 1 (.dm ⟨1, 1⟩) =
      .ok (toResponse (SignalLib.AnalogToDigitalDM (fun _ => 0) 1 1 ⟨1, 1⟩))) ∧
    (ServiceImpl.DigitalToAnalogHandler (fun _ => 0) ['1', '0'] .ASK =
      .ok (toResponse (SignalLib.DigitalToAnalog (fun _ => 0) ['1', '0'] .ASK))) ∧
    (ServiceImpl.DigitalToDigitalHandler ['1', '0'] .AMI =
      .ok (toResponse (SignalLib.DigitalToDigital ['1', '0'] .AMI))) :=
  ⟨⟨by norm_num,
    claim1_service_equals_core.1 (fun _ => 0) 1 1 .AM (by norm_num) (by norm_num)⟩,
   claim1_service_equals_core.2.1 (fun _ => 0) 1 1 ⟨1, 2⟩ (by norm_num)
     (by norm_num) (by norm_num) (by norm_num),
   claim1_service_equals_core.2.2.1 (fun _ => 0) 1 1 ⟨1, 1⟩ (by norm_num)
     (by norm_num) (by norm_num) (by norm_num) (by norm_num),
   claim1_service_equals_core.2.2.2.1 (fun _ => 0) ['1', '0'] .ASK (by simp)
     (by decide),
   claim1_service_equals_core.2.2.2.2 ['1', '0'] .AMI (by simp) (by decide)⟩

/-- A value linearly interpolated with a ratio in [0, 1] stays between
the bounds of its two endpoints. -/
lemma interp_bounds {lo hi y1 y2 r : ℚ} (h1 : lo ≤ y1) (h2 : y1 ≤ hi)
    (h3 : lo ≤ y2) (h4 : y2 ≤ hi) (hr0 : 0 ≤ r) (hr1 : r ≤ 1) :
    lo ≤ y1 + r * (y2 - y1) ∧ y1 + r * (y2 - y1) ≤ hi := by
  constructor
  · nlinarith [mul_nonneg hr0 (sub_nonneg.mpr h3),
      mul_nonneg (sub_nonneg.mpr hr1) (sub_nonneg.mpr h1)]
  · nlinarith [mul_nonneg hr0 (sub_nonneg.mpr h4),
      mul_nonneg (sub_nonneg.mpr hr1) (sub_nonneg.mpr h2)]

/-- The interpolation helper stays within any y bounds of its point
sequence that also contain 0 (the empty-sequence default). -/
lemma giv_bounds {lo hi : ℚ} (hlo : lo ≤ 0) (hhi : 0 ≤ hi)
    (l : List SignalLib.Point) (hy : ∀ p ∈ l, lo ≤ p.y ∧ p.y ≤ hi) (t : ℚ) :
    lo ≤ SignalLib.get_input_value_at_time l t ∧
      SignalLib.get_input_value_at_time l t ≤ hi := by
  match l with
  | [] => exact ⟨hlo, hhi⟩
  | p₀ :: rest =>
    rw [SignalLib.get_input_value_at_time]
    simp only [SignalLib.lowerBoundIdx]
    split_ifs with h1 h2 h3 h4
    · exact hy p₀ (List.mem_cons_self _ _)
    · exact hy _ (List.getLast_mem _)
    · exact hy p₀ (List.mem_cons_self _ _)
    all_goals {
      set i := (p₀ :: rest).findIdx (fun p => decide (t ≤ p.x)) with hidef
      have hlt : i < (p₀ :: rest).length := by
        apply List.findIdx_lt_length_of_exists
        exact ⟨(p₀ :: rest).getLast (List.cons_ne_nil _ _), List.getLast_mem _,
          by simp only [decide_eq_true_eq]; exact le_of_not_le h2⟩
      have hlt1 : i - 1 < (p₀ :: rest).length := by omega
      have hp2x : t ≤ ((p₀ :: rest).getD i ⟨0, 0⟩).x := by
        rw [List.getD_eq_getElem _ _ hlt]
        have hfound := @List.findIdx_getElem _ (fun p => decide (t ≤ p.x))
          (p₀ :: rest) (by rw [← hidef]; exact hlt)
        simp only [decide_eq_true_eq] at hfound
        exact hfound
      have hp1x : ((p₀ :: rest).getD (i - 1) ⟨0, 0⟩).x < t := by
        rw [List.getD_eq_getElem _ _ hlt1]
        have hprev := List.not_of_lt_findIdx
          (show i - 1 < (p₀ :: rest).findIdx (fun p => decide (t ≤ p.x)) by
            rw [← hidef]; omega)
        simp only [decide_eq_false_iff_not, not_le] at hprev
        exact hprev
      have hmem2 : (p₀ :: rest).getD i ⟨0, 0⟩ ∈ (p₀ :: rest) := by
        rw [List.getD_eq_getElem _ _ hlt]
        exact List.getElem_mem _
      have hmem1 : (p₀ :: rest).getD (i - 1) ⟨0, 0⟩ ∈ (p₀ :: rest) := by
        rw [List.getD_eq_getElem _ _ hlt1]
        exact List.getElem_mem _
      first
      | exact hy _ hmem1
      | {
        obtain ⟨hy1lo, hy1hi⟩ := hy _ hmem1
        obtain ⟨hy2lo, hy2hi⟩ := hy _ hmem2
        have hd : (0 : ℚ) < ((p₀ :: rest).getD i ⟨0, 0⟩).x -
            ((p₀ :: rest).getD (i - 1) ⟨0, 0⟩).x := by linarith
        have hr0 : (0 : ℚ) ≤ (t - ((p₀ :: rest).getD (i - 1) ⟨0, 0⟩).x) /
            (((p₀ :: rest).getD i ⟨0, 0⟩).x -
              ((p₀ :: rest).getD (i - 1) ⟨0, 0⟩).x) :=
          div_nonneg (by linarith) (le_of_lt hd)
        have hr1 : (t - ((p₀ :: rest).getD (i - 1) ⟨0, 0⟩).x) /
            (((p₀ :: rest).getD i ⟨0, 0⟩).x -
              ((p₀ :: rest).getD (i - 1) ⟨0, 0⟩).x) ≤ 1 :=
          (div_le_one hd).mpr (by linarith)
        exact interp_bounds hy1lo hy1hi hy2lo hy2hi hr0 hr1
      }
    }

/-- With the sine values bounded by 1 and a positive amplitude, every y
of the analog base signal lies in [-amp, amp]. -/
lemma analogInputSignal_y_bounds (s : ℚ → ℚ) (freq amp : ℚ) (sps n : ℕ)
    (hs : ∀ t, |s t| ≤ 1) (ha : 0 < amp) :
    ∀ p ∈ SignalLib.analogInputSignal s freq amp sps n,
      -amp ≤ p.y ∧ p.y ≤ amp := by
  intro p hp
  simp only [SignalLib.analogInputSignal, List.mem_map] at hp
  obtain ⟨j, hj, rfl⟩ := hp
  dsimp only
  have hb := hs (2 * SignalLib.PI * freq * ((j : ℚ) * (1 / (sps : ℚ))))
  rw [abs_le] at hb
  constructor <;> nlinarith [hb.1, hb.2]

/-- Round-half-away-from-zero sends [0, 1] onto {0, 1}. -/
lemma roundAway_mem_01 {q : ℚ} (h0 : 0 ≤ q) (h1 : q ≤ 1) :
    SignalLib.roundAway q = 0 ∨ SignalLib.roundAway q = 1 := by
  rw [SignalLib.roundAway, if_neg (not_lt.mpr h0)]
  have hfl : (0 : ℤ) ≤ ⌊q + 1/2⌋ := by
    apply Int.le_floor.mpr; push_cast; linarith
  have hfu : ⌊q + 1/2⌋ ≤ 1 := by
    have h32 : ⌊q + 1/2⌋ ≤ ⌊(3 : ℚ)/2⌋ := Int.floor_le_floor (by linarith)
    have : ⌊(3 : ℚ)/2⌋ = 1 := by norm_num [Int.floor_eq_iff]
    omega
  interval_cases h : ⌊q + 1/2⌋ <;> simp [h]

/-- Every output point of the PCM sample loop carries a reconstructed
value of the stated closed form at some query time. -/
lemma pcmLoop_output_mem (input_signal : List SignalLib.Point)
    (si rd ia iqr qr amp : ℚ) :
    ∀ fuel i p,
      p ∈ (SignalLib.pcmLoop input_signal si rd ia iqr qr amp fuel i).2 →
      ∃ t, p.y = (SignalLib.roundAway
        ((SignalLib.get_input_value_at_time input_signal t * ia + 1) * 0.5 * qr) *
          iqr * 2 - 1) * amp := by
  intro fuel
  induction fuel with
  | zero => intro i p hp; simp [SignalLib.pcmLoop] at hp
  | succ n ih =>
    intro i p hp
    rw [SignalLib.pcmLoop] at hp
    split_ifs at hp with hbreak
    · simp at hp
    · simp only [List.mem_cons] at hp
      rcases hp with hp | hp
      · exact ⟨SignalLib.round6 ((i : ℚ) * si), by rw [hp]⟩
      · exact ih (i + 1) p hp

/-- C8: for any valid PCM invocation with exactly 2 quantization levels,
under the physical bound that the sine values never exceed 1 in absolute
value, every reconstructed output y is either +amplitude or -amplitude. -/
theorem claim8_pcm_two_levels (s : ℚ → ℚ) (freq amp sr : ℚ)
    (hs : ∀ t, |s t| ≤ 1) (hf : 0 < freq) (ha : 0 < amp) (hsr : 0 < sr) :
    ∀ p ∈ (SignalLib.AnalogToDigitalPCM s freq amp ⟨sr, 2⟩).output,
      p.y = amp ∨ p.y = -amp := by
  intro p hp
  have hcond : ¬ (freq ≤ 0 ∨ amp ≤ 0 ∨
      (SignalLib.PCMConfig.mk sr 2).sampling_rate ≤ 0 ∨
      (SignalLib.PCMConfig.mk sr 2).quantization_levels < 2) := by
    push_neg
    exact ⟨hf, ha, hsr, le_rfl⟩
  simp only [SignalLib.AnalogToDigitalPCM, if_neg hcond] at hp
  obtain ⟨t, hpy⟩ := pcmLoop_output_mem _ _ _ _ _ _ _ _ _ p hp
  have hv := giv_bounds (neg_nonpos.mpr (le_of_lt ha)) (le_of_lt ha) _
    (analogInputSignal_y_bounds s freq amp 100 200 hs ha) t
  set v := SignalLib.get_input_value_at_time
    (SignalLib.analogInputSignal s freq amp 100 200) t with hvdef
  have h2 : ((2 : ℤ) : ℚ) - 1 = 1 := by norm_num
  rw [h2] at hpy
  have hva : v * (1 / amp) = v / amp := by ring
  rw [hva] at hpy
  simp only [mul_one, one_div_one] at hpy
  have hl : -1 ≤ v / amp := by
    rw [le_div_iff ha]; linarith [hv.1]
  have hu : v / amp ≤ 1 := (div_le_one ha).mpr hv.2
  have h0 : 0 ≤ (v / amp + 1) * 0.5 := by linarith
  have h1 : (v / amp + 1) * 0.5 ≤ 1 := by linarith
  rcases roundAway_mem_01 h0 h1 with h | h
  · right; rw [hpy, h]; ring
  · left; rw [hpy, h]; ring

/-- Witness for C8 with the constant-zero sine model at frequency 1,
amplitude 1, sampling rate 1. -/
theorem claim8_witness :
    (∀ t : ℚ, |(fun _ => (0 : ℚ)) t| ≤ 1) ∧
      ∀ p ∈ (SignalLib.AnalogToDigitalPCM (fun _ => 0) 1 1 ⟨1, 2⟩).output,
        p.y = 1 ∨ p.y = -1 :=
  ⟨fun t => by norm_num,
    claim8_pcm_two_levels (fun _ => 0) 1 1 1 (fun t => by norm_num)
      (by norm_num) (by norm_num) (by norm_num)⟩

/-- The default-carrying last element of a nonempty list is a member. -/
lemma getLastD_mem {α : Type} (l : List α) (d : α) (h : l ≠ []) :
    l.getLastD d ∈ l := by
  rw [List.getLastD_eq_getLast?, List.getLast?_eq_getLast l h]
  simp only [Option.getD_some]
  exact List.getLast_mem h

/-- The delta-modulation loop only ever appends to its output
accumulator. -/
lemma dmLoop_acc_grows (input_signal : List SignalLib.Point)
    (si rd delta mn mx : ℚ) :
    ∀ fuel i approx acc, ∃ tail,
      (SignalLib.dmLoop input_signal si rd delta mn mx fuel i approx acc).2 =
        acc ++ tail := by
  intro fuel
  induction fuel with
  | zero =>
    intro i approx acc
    exact ⟨[], by simp [SignalLib.dmLoop]⟩
  | succ n ih =>
    intro i approx acc
    rw [SignalLib.dmLoop]
    split_ifs with hbreak hemp
    · exact ⟨[], by simp⟩
    · dsimp only
      obtain ⟨tail, htail⟩ := ih (i + 1) _ _
      rw [htail]
      exact ⟨_, by rw [List.append_assoc]⟩
    · dsimp only
      obtain ⟨tail, htail⟩ := ih (i + 1) _ _
      rw [htail]
      exact ⟨_, by rw [List.append_assoc, List.append_assoc]⟩

/-- Clamping invariant of the delta-modulation loop: with ordered clamp
bounds and an accumulator whose y values already lie within them, every
y the loop ever stores lies within them too. -/
lemma dmLoop_acc_bounds (input_signal : List SignalLib.Point)
    (si rd delta mn mx : ℚ) (hmn : mn ≤ mx) :
    ∀ fuel i approx acc, (∀ p ∈ acc, mn ≤ p.y ∧ p.y ≤ mx) →
      ∀ p ∈ (SignalLib.dmLoop input_signal si rd delta mn mx fuel i approx acc).2,
        mn ≤ p.y ∧ p.y ≤ mx := by
  intro fuel
  induction fuel with
  | zero =>
    intro i approx acc hacc p hp
    rw [SignalLib.dmLoop] at hp
    exact hacc p hp
  | succ n ih =>
    intro i approx acc hacc p hp
    rw [SignalLib.dmLoop] at hp
    split_ifs at hp with hbreak hemp
    · exact hacc p hp
    · dsimp only at hp
      refine ih (i + 1) _ _ ?_ p hp
      intro q hq
      simp only [List.mem_append, List.mem_singleton] at hq
      rcases hq with hq | hq
      · exact hacc q hq
      · subst hq
        refine ⟨le_max_left _ _, max_le hmn (min_le_left _ _)⟩
    · dsimp only at hp
      refine ih (i + 1) _ _ ?_ p hp
      intro q hq
      simp only [List.mem_append, List.mem_singleton] at hq
      rcases hq with (hq | hq) | hq
      · exact hacc q hq
      · subst hq
        dsimp only
        have hne : acc ≠ [] := by
          intro h
          rw [h] at hemp
          exact hemp rfl
        exact hacc _ (getLastD_mem acc ⟨0, 0⟩ hne)
      · subst hq
        refine ⟨le_max_left _ _, max_le hmn (min_le_left _ _)⟩

/-- C9: for every valid delta-modulation invocation, the running
approximation is re-clamped after every update, so every y value of the
output staircase — seed point, hold points, approximation points and the
final extension — lies within [-1.5 amplitude, +1.5 amplitude]. -/
theorem claim9_dm_clamped (s : ℚ → ℚ) (freq amp : ℚ) (cfg : SignalLib.DMConfig)
    (hf : 0 < freq) (ha : 0 < amp) (hsr : 0 < cfg.sampling_rate)
    (hst : 0 < cfg.delta_step_size) (hst1 : cfg.delta_step_size ≤ 1) :
    ∀ p ∈ (SignalLib.AnalogToDigitalDM s freq amp cfg).output,
      -(1.5 * amp) ≤ p.y ∧ p.y ≤ 1.5 * amp := by
  intro p hp
  have hcond : ¬ (freq ≤ 0 ∨ amp ≤ 0 ∨ cfg.sampling_rate ≤ 0 ∨
      cfg.delta_step_size ≤ 0 ∨ 1 < cfg.delta_step_size) := by
    push_neg; exact ⟨hf, ha, hsr, hst, hst1⟩
  simp only [SignalLib.AnalogToDigitalDM, if_neg hcond] at hp
  have hmn : -amp * 1.5 ≤ amp * 1.5 := by nlinarith
  have hbase : ∀ q ∈ ([⟨0, 0⟩] : List SignalLib.Point),
      -amp * 1.5 ≤ q.y ∧ q.y ≤ amp * 1.5 := by
    intro q hq
    simp only [List.mem_singleton] at hq
    subst hq
    constructor <;> dsimp only <;> nlinarith
  have hr2 := dmLoop_acc_bounds (SignalLib.analogInputSignal s freq amp 100 200)
    (1 / cfg.sampling_rate)
    ((SignalLib.analogInputSignal s freq amp 100 200).getLastD ⟨0, 0⟩).x
    (amp * cfg.delta_step_size) (-amp * 1.5) (amp * 1.5) hmn
    (SignalLib.tickFuel (1 / cfg.sampling_rate)
      ((SignalLib.analogInputSignal s freq amp 100 200).getLastD ⟨0, 0⟩).x)
    0 0 [⟨0, 0⟩] hbase
  split_ifs at hp with hemp
  · have := hr2 p hp
    constructor <;> linarith [this.1, this.2]
  · simp only [List.mem_append, List.mem_singleton] at hp
    rcases hp with hp | hp
    · have := hr2 p hp
      constructor <;> linarith [this.1, this.2]
    · subst hp
      dsimp only
      have hne : (SignalLib.dmLoop (SignalLib.analogInputSignal s freq amp 100 200)
          (1 / cfg.sampling_rate)
          ((SignalLib.analogInputSignal s freq amp 100 200).getLastD ⟨0, 0⟩).x
          (amp * cfg.delta_step_size) (-amp * 1.5) (amp * 1.5)
          (SignalLib.tickFuel (1 / cfg.sampling_rate)
            ((SignalLib.analogInputSignal s freq amp 100 200).getLastD ⟨0, 0⟩).x)
          0 0 [⟨0, 0⟩]).2 ≠ [] := by
        intro h
        rw [h] at hemp
        exact hemp rfl
      have := hr2 _ (getLastD_mem _ ⟨0, 0⟩ hne)
      constructor <;> linarith [this.1, this.2]

/-- Witness for C9 with the constant-zero sine model at frequency 1,
amplitude 1, sampling rate 1, step size 1. -/
theorem claim9_witness :
    (0 : ℚ) < 1 ∧
      ∀ p ∈ (SignalLib.AnalogToDigitalDM (fun _ => 0) 1 1 ⟨1, 1⟩).output,
        -(1.5 * 1) ≤ p.y ∧ p.y ≤ 1.5 * 1 :=
  ⟨by norm_num,
    claim9_dm_clamped (fun _ => 0) 1 1 ⟨1, 1⟩ (by norm_num) (by norm_num)
      (by norm_num) (by norm_num) (by norm_num)⟩

/-- A sample tick at index i stays within the loop bound exactly when i
is at most the floor of real_duration over sample_interval. -/
lemma tick_le_iff {si rd : ℚ} (hsi : 0 < si) (hrd : 0 ≤ rd) (i : ℕ) :
    (i : ℚ) * si ≤ rd ↔ i ≤ (⌊rd / si⌋).toNat := by
  have hfl0 : 0 ≤ ⌊rd / si⌋ := Int.floor_nonneg.mpr (div_nonneg hrd hsi.le)
  rw [← le_div_iff hsi, Int.le_toNat hfl0, Int.le_floor]
  push_cast
  rfl

/-- Tick characterisation of the PCM sample loop: with adequate fuel,
the x coordinates of both emitted lists are exactly the 1e-6-rounded
times i * sample_interval for the tick indices up to the loop bound. -/
lemma pcmLoop_x_char (input_signal : List SignalLib.Point)
    (si rd ia iqr qr amp : ℚ) (hsi : 0 < si) (hrd : 0 ≤ rd) :
    ∀ fuel i, (⌊rd / si⌋).toNat + 1 - i < fuel →
      ((SignalLib.pcmLoop input_signal si rd ia iqr qr amp fuel i).1.map
          SignalLib.Point.x =
        (List.range' i ((⌊rd / si⌋).toNat + 1 - i)).map
          (fun (j : ℕ) => SignalLib.round6 ((j : ℚ) * si))) ∧
      ((SignalLib.pcmLoop input_signal si rd ia iqr qr amp fuel i).2.map
          SignalLib.Point.x =
        (List.range' i ((⌊rd / si⌋).toNat + 1 - i)).map
          (fun (j : ℕ) => SignalLib.round6 ((j : ℚ) * si))) := by
  intro fuel
  induction fuel with
  | zero => intro i h; exact absurd h (Nat.not_lt_zero _)
  | succ n ih =>
    intro i h
    rw [SignalLib.pcmLoop]
    by_cases hbr : rd < (i : ℚ) * si
    · have hgt : ¬ i ≤ (⌊rd / si⌋).toNat := by
        rw [← tick_le_iff hsi hrd]
        exact not_le.mpr hbr
      have hz : (⌊rd / si⌋).toNat + 1 - i = 0 := by omega
      rw [if_pos hbr, hz]
      simp
    · have hle : i ≤ (⌊rd / si⌋).toNat := by
        rw [← tick_le_iff hsi hrd]
        exact not_lt.mp hbr
      have hsz : (⌊rd / si⌋).toNat + 1 - i = ((⌊rd / si⌋).toNat - i) + 1 := by
        omega
      have hstep : List.range' i ((⌊rd / si⌋).toNat + 1 - i) =
          i :: List.range' (i + 1) ((⌊rd / si⌋).toNat + 1 - (i + 1)) := by
        have h2 : (⌊rd / si⌋).toNat + 1 - (i + 1) = (⌊rd / si⌋).toNat - i := by
          omega
        rw [hsz, h2, List.range'_succ]
      rw [if_neg hbr, hstep]
      dsimp only
      obtain ⟨ih1, ih2⟩ := ih (i + 1) (by omega)
      constructor
      · simp only [List.map_cons, ih1]
      · simp only [List.map_cons, ih2]

/-- The x of the last point of the 200-sample ADC base signal is 1.99,
the bound actually used by the sample loops. -/
lemma analogInputSignal_realDur (s : ℚ → ℚ) (freq amp : ℚ) :
    ((SignalLib.analogInputSignal s freq amp 100 200).getLastD ⟨0, 0⟩).x =
      199/100 := by
  rw [SignalLib.analogInputSignal, List.getLastD_eq_getLast?, List.getLast?_map,
    show (List.range 200).getLast? = some 199 from (by decide)]
  simp only [Option.map_some, Option.getD_some]
  norm_num

/-- C5 (amended): the PCM converter emits one transmitted and one output
point at each sample time t = i / sampling_rate rounded to 1e-6, for
exactly those i whose raw time is at most 1.99 — the x of the LAST
base-signal sample, the bound the loop actually uses — and none for
later i; the third conjunct characterises that set of indices.  (The
claim as frozen says the bound is the total base-signal duration 2.0,
with sampling_rate = 1 giving ticks t = 0, 1, 2; the code stops at 1.99,
so sampling_rate = 1 gives ticks t = 0, 1 only.) -/
theorem claim5_pcm_ticks_amended (s : ℚ → ℚ) (freq amp : ℚ)
    (cfg : SignalLib.PCMConfig)
    (hf : 0 < freq) (ha : 0 < amp) (hsr : 0 < cfg.sampling_rate)
    (hql : 2 ≤ cfg.quantization_levels) :
    ((SignalLib.AnalogToDigitalPCM s freq amp cfg).transmitted.map
        SignalLib.Point.x =
      (List.range' 0 ((⌊(199/100 : ℚ) / (1 / cfg.sampling_rate)⌋).toNat + 1)).map
        (fun (j : ℕ) => SignalLib.round6 ((j : ℚ) * (1 / cfg.sampling_rate)))) ∧
    ((SignalLib.AnalogToDigitalPCM s freq amp cfg).output.map
        SignalLib.Point.x =
      (List.range' 0 ((⌊(199/100 : ℚ) / (1 / cfg.sampling_rate)⌋).toNat + 1)).map
        (fun (j : ℕ) => SignalLib.round6 ((j : ℚ) * (1 / cfg.sampling_rate)))) ∧
    (∀ i : ℕ, ((i : ℚ) * (1 / cfg.sampling_rate) ≤ 199/100 ↔
      i ≤ (⌊(199/100 : ℚ) / (1 / cfg.sampling_rate)⌋).toNat)) := by
  have hcond : ¬ (freq ≤ 0 ∨ amp ≤ 0 ∨ cfg.sampling_rate ≤ 0 ∨
      cfg.quantization_levels < 2) := by
    push_neg; exact ⟨hf, ha, hsr, hql⟩
  have hrd := analogInputSignal_realDur s freq amp
  have hsi : 0 < 1 / cfg.sampling_rate := by positivity
  have h199 : (0 : ℚ) ≤ 199/100 := by norm_num
  have hchar := pcmLoop_x_char (SignalLib.analogInputSignal s freq amp 100 200)
    (1 / cfg.sampling_rate) (199/100) (1 / amp)
    (1 / ((cfg.quantization_levels : ℚ) - 1)) ((cfg.quantization_levels : ℚ) - 1)
    amp hsi h199 (SignalLib.tickFuel (1 / cfg.sampling_rate) (199/100)) 0
    (by rw [SignalLib.tickFuel]; omega)
  refine ⟨?_, ?_, ?_⟩
  · simp only [SignalLib.AnalogToDigitalPCM, if_neg hcond, hrd]
    rw [hchar.1, Nat.sub_zero]
  · simp only [SignalLib.AnalogToDigitalPCM, if_neg hcond, hrd]
    rw [hchar.2, Nat.sub_zero]
  · intro i
    exact tick_le_iff hsi h199 i

/-- Counterexample to C5 as frozen: at sampling_rate 1 the tick i = 2
has t = 2 * (1/1) = 2 within the claimed bound of 2.0 seconds, yet the
transmitted x values are exactly [0, 1] — there is no point at x = 2. -/
theorem claim5_counterexample :
    (SignalLib.AnalogToDigitalPCM (fun _ => 0) 1 1 ⟨1, 2⟩).transmitted.map
        SignalLib.Point.x = [0, 1] ∧
      ((2 : ℚ) * (1 / 1) ≤ 2) := by
  constructor
  · have hcond : ¬ ((1 : ℚ) ≤ 0 ∨ (1 : ℚ) ≤ 0 ∨
        (SignalLib.PCMConfig.mk 1 2).sampling_rate ≤ 0 ∨
        (SignalLib.PCMConfig.mk 1 2).quantization_levels < 2) := by
      norm_num
    have hrd := analogInputSignal_realDur (fun _ => 0) 1 1
    have hchar := pcmLoop_x_char
      (SignalLib.analogInputSignal (fun _ => 0) 1 1 100 200)
      (1 / 1) (199/100) (1 / 1) (1 / (((2 : ℤ) : ℚ) - 1)) (((2 : ℤ) : ℚ) - 1)
      1 (by norm_num) (by norm_num)
      (SignalLib.tickFuel (1 / 1) (199/100)) 0
      (by rw [SignalLib.tickFuel]; omega)
    simp only [SignalLib.AnalogToDigitalPCM, if_neg hcond, hrd]
    rw [hchar.1]
    have hM : (⌊(199/100 : ℚ) / (1 / 1)⌋).toNat = 1 := by norm_num
    rw [hM]
    norm_num [List.range', SignalLib.round6, SignalLib.roundAway]
  · norm_num

/-- Witness for the amended C5 at frequency 1, amplitude 1, sampling
rate 1, 2 quantization levels. -/
theorem claim5_witness :
    (0 : ℚ) < 1 ∧
      (((SignalLib.AnalogToDigitalPCM (fun _ => 0) 1 1 ⟨1, 2⟩).transmitted.map
          SignalLib.Point.x =
        (List.range' 0 ((⌊(199/100 : ℚ) / (1 / (1 : ℚ))⌋).toNat + 1)).map
          (fun (j : ℕ) => SignalLib.round6 ((j : ℚ) * (1 / (1 : ℚ))))) ∧
      ((SignalLib.AnalogToDigitalPCM (fun _ => 0) 1 1 ⟨1, 2⟩).output.map
          SignalLib.Point.x =
        (List.range' 0 ((⌊(199/100 : ℚ) / (1 / (1 : ℚ))⌋).toNat + 1)).map
          (fun (j : ℕ) => SignalLib.round6 ((j : ℚ) * (1 / (1 : ℚ))))) ∧
      (∀ i : ℕ, ((i : ℚ) * (1 / (1 : ℚ)) ≤ 199/100 ↔
        i ≤ (⌊(199/100 : ℚ) / (1 / (1 : ℚ))⌋).toNat))) :=
  ⟨by norm_num,
    claim5_pcm_ticks_amended (fun _ => 0) 1 1 ⟨1, 2⟩ (by norm_num) (by norm_num)
      (by norm_num) (by norm_num)⟩

/-- The empty sequence is x-monotone from any lower bound. -/
lemma xFrom_nil (a : ℚ) : SignalLib.xFrom a [] :=
  ⟨List.chain'_nil, by intro p hp; cases hp⟩

/-- Prepending a point at x = a to a sequence bounded from b ≥ a. -/
lemma xFrom_cons {a b v : ℚ} {l : List SignalLib.Point} (hab : a ≤ b)
    (h : SignalLib.xFrom b l) : SignalLib.xFrom a (⟨a, v⟩ :: l) := by
  constructor
  · rw [List.chain'_cons']
    refine ⟨?_, h.1⟩
    intro q hq
    exact le_trans hab (h.2 q (List.mem_of_mem_head? hq))
  · intro p hp
    rcases List.mem_cons.mp hp with hp | hp
    · subst hp; exact le_refl a
    · exact le_trans hab (h.2 p hp)

/-- Concatenating an x-monotone block bounded above by b with a sequence
bounded below by b. -/
lemma xFrom_append {a b : ℚ} {l₁ l₂ : List SignalLib.Point}
    (h₁ : SignalLib.xFrom a l₁) (hub : ∀ p ∈ l₁, p.x ≤ b)
    (h₂ : SignalLib.xFrom b l₂) (hab : a ≤ b) :
    SignalLib.xFrom a (l₁ ++ l₂) := by
  constructor
  · rw [List.chain'_append]
    refine ⟨h₁.1, h₂.1, ?_⟩
    intro p hp q hq
    exact le_trans (hub p (List.mem_of_mem_getLast? hp))
      (h₂.2 q (List.mem_of_mem_head? hq))
  · intro p hp
    rcases List.mem_append.mp hp with hp | hp
    · exact h₁.2 p hp
    · exact le_trans hab (h₂.2 p hp)

/-- A map over an index range with pointwise-monotone x values is an
x-monotone sequence from any common lower bound. -/
lemma xFrom_map_range {n : ℕ} {f : ℕ → SignalLib.Point} {a : ℚ}
    (h0 : ∀ j, a ≤ (f j).x) (hmono : ∀ j, (f j).x ≤ (f (j + 1)).x) :
    SignalLib.xFrom a ((List.range n).map f) := by
  constructor
  · rw [List.chain'_map]
    cases n with
    | zero => exact List.chain'_nil
    | succ m =>
      rw [List.chain'_range_succ]
      intro j hj
      exact hmono j
  · intro p hp
    obtain ⟨j, hj, rfl⟩ := List.mem_map.mp hp
    exact h0 j

/-- Mapping a function that keeps x unchanged preserves the predicate. -/
lemma xFrom_map_x_preserving {a : ℚ} {l : List SignalLib.Point}
    {g : SignalLib.Point → SignalLib.Point} (hg : ∀ p, (g p).x = p.x)
    (h : SignalLib.xFrom a l) : SignalLib.xFrom a (l.map g) := by
  constructor
  · rw [List.chain'_map]
    refine List.Chain'.imp ?_ h.1
    intro p q hpq
    rw [hg p, hg q]
    exact hpq
  · intro p hp
    obtain ⟨q, hq, rfl⟩ := List.mem_map.mp hp
    rw [hg q]
    exact h.2 q hq

/-- Transfer of the predicate through an equation on x coordinates. -/
lemma xFrom_of_map_x_eq {a : ℚ} {l : List SignalLib.Point} {xs : List ℚ}
    (h : l.map SignalLib.Point.x = xs) (hchain : xs.Chain' (· ≤ ·))
    (hlb : ∀ x ∈ xs, a ≤ x) : SignalLib.xFrom a l := by
  constructor
  · rw [← List.chain'_map (f := SignalLib.Point.x), h]
    exact hchain
  · intro p hp
    exact hlb p.x (h ▸ List.mem_map_of_mem SignalLib.Point.x hp)

/-- Round-half-away-from-zero is monotone. -/
lemma roundAway_mono {q r : ℚ} (h : q ≤ r) :
    SignalLib.roundAway q ≤ SignalLib.roundAway r := by
  rw [SignalLib.roundAway, SignalLib.roundAway]
  split_ifs with hq hr hr
  · push_cast
    have : ⌊-r + 1/2⌋ ≤ ⌊-q + 1/2⌋ := Int.floor_le_floor (by linarith)
    exact_mod_cast neg_le_neg (by exact_mod_cast this)
  · have h1 : (0 : ℤ) ≤ ⌊-q + 1/2⌋ := Int.le_floor.mpr (by push_cast; linarith)
    have h2 : (0 : ℤ) ≤ ⌊r + 1/2⌋ := Int.le_floor.mpr (by push_cast; linarith)
    have h1q : (0 : ℚ) ≤ ((⌊-q + 1/2⌋ : ℤ) : ℚ) := by exact_mod_cast h1
    have h2q : (0 : ℚ) ≤ ((⌊r + 1/2⌋ : ℤ) : ℚ) := by exact_mod_cast h2
    linarith
  · linarith
  · exact_mod_cast Int.floor_le_floor (by linarith)

/-- Round-half-away-from-zero keeps non-negative inputs non-negative. -/
lemma roundAway_nonneg {q : ℚ} (h : 0 ≤ q) : 0 ≤ SignalLib.roundAway q := by
  rw [SignalLib.roundAway, if_neg (not_lt.mpr h)]
  exact_mod_cast Int.le_floor.mpr (by push_cast; linarith)

/-- The 1e-6 rounding step is monotone. -/
lemma round6_mono {q r : ℚ} (h : q ≤ r) :
    SignalLib.round6 q ≤ SignalLib.round6 r := by
  rw [SignalLib.round6, SignalLib.round6]
  have := roundAway_mono (show q * 1000000 ≤ r * 1000000 by linarith)
  linarith

/-- The 1e-6 rounding step keeps non-negative inputs non-negative. -/
lemma round6_nonneg {q : ℚ} (h : 0 ≤ q) : 0 ≤ SignalLib.round6 q := by
  rw [SignalLib.round6]
  have := roundAway_nonneg (show (0:ℚ) ≤ q * 1000000 by linarith)
  linarith

/-- The 1e-6 rounding of zero is zero. -/
lemma round6_zero : SignalLib.round6 0 = 0 := by
  norm_num [SignalLib.round6, SignalLib.roundAway]

/-- A map of a step-monotone sequence over a contiguous index range is a
chain for the order. -/
lemma chainLe_map_range' (f : ℕ → ℚ) (hf : ∀ j, f j ≤ f (j + 1)) :
    ∀ (n i : ℕ), ((List.range' i n).map f).Chain' (· ≤ ·) := by
  intro n
  induction n with
  | zero => intro i; exact List.chain'_nil
  | succ m ih =>
    intro i
    rw [List.range'_succ, List.map_cons, List.chain'_cons']
    refine ⟨?_, ih (i + 1)⟩
    intro y hy
    cases m with
    | zero => cases hy
    | succ k =>
      rw [List.range'_succ, List.map_cons, List.head?_cons,
        Option.mem_some_iff] at hy
      subst hy
      exact hf i

/-- The digital base-signal loop is x-monotone from its cursor. -/
lemma digitalInputGo_xFrom : ∀ (l : List Char) (i : ℕ),
    SignalLib.xFrom (i : ℚ) (SignalLib.digitalInputGo i l) := by
  intro l
  induction l with
  | nil => intro i; exact xFrom_nil _
  | cons c rest ih =>
    intro i
    rw [SignalLib.digitalInputGo]
    have hrec := ih (i + 1)
    push_cast at hrec
    exact xFrom_cons (by linarith) (xFrom_cons (le_refl _) hrec)

/-- The NRZ-L loop is x-monotone from its cursor. -/
lemma nrzlGo_xFrom : ∀ (l : List Char) (i : ℕ),
    SignalLib.xFrom (i : ℚ) (SignalLib.nrzlGo i l) := by
  intro l
  induction l with
  | nil => intro i; exact xFrom_nil _
  | cons c rest ih =>
    intro i
    rw [SignalLib.nrzlGo]
    have hrec := ih (i + 1)
    push_cast at hrec
    exact xFrom_cons (by linarith) (xFrom_cons (le_refl _) hrec)

/-- The NRZ-I loop is x-monotone from its cursor. -/
lemma nrziGo_xFrom : ∀ (l : List Char) (lvl : ℚ) (i : ℕ),
    SignalLib.xFrom (i : ℚ) (SignalLib.nrziGo lvl i l) := by
  intro l
  induction l with
  | nil => intro lvl i; exact xFrom_nil _
  | cons c rest ih =>
    intro lvl i
    rw [SignalLib.nrziGo]
    have hrec := ih (if c = '1' then -lvl else lvl) (i + 1)
    push_cast at hrec
    exact xFrom_cons (by linarith) (xFrom_cons (le_refl _) hrec)

/-- The Manchester loop is x-monotone from its cursor. -/
lemma manchesterGo_xFrom : ∀ (l : List Char) (i : ℕ),
    SignalLib.xFrom (i : ℚ) (SignalLib.manchesterGo i l) := by
  intro l
  induction l with
  | nil => intro i; exact xFrom_nil _
  | cons c rest ih =>
    intro i
    rw [SignalLib.manchesterGo]
    have hrec := ih (i + 1)
    push_cast at hrec
    split_ifs <;>
    · simp only [List.cons_append, List.nil_append]
      exact xFrom_cons (by linarith) (xFrom_cons (by linarith)
        (xFrom_cons (by linarith) (xFrom_cons (by linarith) hrec)))

/-- The differential Manchester loop is x-monotone from its cursor. -/
lemma diffManchesterGo_xFrom : ∀ (l : List Char) (lvl : ℚ) (i : ℕ),
    SignalLib.xFrom (i : ℚ) (SignalLib.diffManchesterGo lvl i l) := by
  intro l
  induction l with
  | nil => intro lvl i; exact xFrom_nil _
  | cons c rest ih =>
    intro lvl i
    rw [SignalLib.diffManchesterGo]
    have hrec := ih (-(if c = '0' then -lvl else lvl)) (i + 1)
    push_cast at hrec
    exact xFrom_cons (by linarith) (xFrom_cons (by linarith)
      (xFrom_cons (by linarith) (xFrom_cons (by linarith) hrec)))

/-- The AMI loop is x-monotone from its cursor. -/
lemma amiGo_xFrom : ∀ (l : List Char) (pol : ℚ) (i : ℕ),
    SignalLib.xFrom (i : ℚ) (SignalLib.amiGo pol i l) := by
  intro l
  induction l with
  | nil => intro pol i; exact xFrom_nil _
  | cons c rest ih =>
    intro pol i
    rw [SignalLib.amiGo]
    have hrec1 := ih (-pol) (i + 1)
    have hrec2 := ih pol (i + 1)
    push_cast at hrec1 hrec2
    split_ifs
    · exact xFrom_cons (by linarith) (xFrom_cons (le_refl _) hrec1)
    · exact xFrom_cons (by linarith) (xFrom_cons (le_refl _) hrec2)

/-- The pseudoternary loop is x-monotone from its cursor. -/
lemma pseudoternaryGo_xFrom : ∀ (l : List Char) (pol : ℚ) (i : ℕ),
    SignalLib.xFrom (i : ℚ) (SignalLib.pseudoternaryGo pol i l) := by
  intro l
  induction l with
  | nil => intro pol i; exact xFrom_nil _
  | cons c rest ih =>
    intro pol i
    rw [SignalLib.pseudoternaryGo]
    have hrec1 := ih (-pol) (i + 1)
    have hrec2 := ih pol (i + 1)
    push_cast at hrec1 hrec2
    split_ifs
    · exact xFrom_cons (by linarith) (xFrom_cons (le_refl _) hrec1)
    · exact xFrom_cons (by linarith) (xFrom_cons (le_refl _) hrec2)

/-- Substitution patterns are x-monotone from their cursor and bounded
above by cursor plus pattern length. -/
lemma patternPoints_xFrom : ∀ (vs : List ℚ) (i : ℕ),
    SignalLib.xFrom (i : ℚ) (SignalLib.patternPoints i vs) ∧
      ∀ p ∈ SignalLib.patternPoints i vs, p.x ≤ (i : ℚ) + vs.length := by
  intro vs
  induction vs with
  | nil =>
    intro i
    exact ⟨xFrom_nil _, by intro p hp; cases hp⟩
  | cons v rest ih =>
    intro i
    rw [SignalLib.patternPoints]
    obtain ⟨ih1, ih2⟩ := ih (i + 1)
    push_cast at ih1 ih2
    have hlen : (0 : ℚ) ≤ rest.length := Nat.cast_nonneg _
    constructor
    · exact xFrom_cons (by linarith) (xFrom_cons (le_refl _) ih1)
    · intro p hp
      simp only [List.length_cons]
      push_cast
      rcases List.mem_cons.mp hp with hp | hp
      · subst hp; dsimp only; linarith
      · rcases List.mem_cons.mp hp with hp | hp
        · subst hp; dsimp only; linarith
        · have := ih2 p hp; linarith

/-- The B8ZS loop is x-monotone from its cursor. -/
lemma b8zsGo_xFrom : ∀ (n : ℕ) (l : List Char), l.length ≤ n →
    ∀ (pol : ℚ) (i : ℕ), SignalLib.xFrom (i : ℚ) (SignalLib.b8zsGo pol i l) := by
  intro n
  induction n with
  | zero =>
    intro l hl pol i
    have : l = [] := List.eq_nil_of_length_eq_zero (Nat.le_zero.mp hl)
    subst this
    rw [SignalLib.b8zsGo]
    exact xFrom_nil _
  | succ n ih =>
    intro l hl pol i
    match l with
    | [] =>
      rw [SignalLib.b8zsGo]
      exact xFrom_nil _
    | c :: rest =>
      rw [SignalLib.b8zsGo]
      have hlen : rest.length ≤ n := by
        simp only [List.length_cons] at hl; omega
      by_cases h8 : SignalLib.eightZerosAhead (c :: rest) = true
      · rw [if_pos h8]
        have hrec := ih (rest.drop 7)
          (by simp only [List.length_drop]; omega) (-pol) (i + 8)
        push_cast at hrec
        obtain ⟨hp1, hp2⟩ :=
          patternPoints_xFrom [0, 0, 0, pol, -pol, 0, pol, -pol] i
        refine xFrom_append hp1 ?_ hrec (by linarith)
        intro p hp
        have hb := hp2 p hp
        norm_num at hb
        linarith
      · rw [if_neg h8]
        by_cases hc : c = '1'
        · rw [if_pos hc]
          have hrec := ih rest hlen (-pol) (i + 1)
          push_cast at hrec
          exact xFrom_cons (by linarith) (xFrom_cons (le_refl _) hrec)
        · rw [if_neg hc]
          have hrec := ih rest hlen pol (i + 1)
          push_cast at hrec
          exact xFrom_cons (by linarith) (xFrom_cons (le_refl _) hrec)

/-- The HDB3 loop is x-monotone from its cursor. -/
lemma hdb3Go_xFrom : ∀ (n : ℕ) (l : List Char), l.length ≤ n →
    ∀ (pol : ℚ) (cnt i : ℕ),
    SignalLib.xFrom (i : ℚ) (SignalLib.hdb3Go pol cnt i l) := by
  intro n
  induction n with
  | zero =>
    intro l hl pol cnt i
    have : l = [] := List.eq_nil_of_length_eq_zero (Nat.le_zero.mp hl)
    subst this
    rw [SignalLib.hdb3Go]
    exact xFrom_nil _
  | succ n ih =>
    intro l hl pol cnt i
    match l with
    | [] =>
      rw [SignalLib.hdb3Go]
      exact xFrom_nil _
    | c :: rest =>
      rw [SignalLib.hdb3Go]
      have hlen : rest.length ≤ n := by
        simp only [List.length_cons] at hl; omega
      by_cases h4 : SignalLib.fourZerosAhead (c :: rest) = true
      · rw [if_pos h4]
        have hrec0 := ih (rest.drop 3)
          (by simp only [List.length_drop]; omega) pol 0 (i + 4)
        have hrec1 := ih (rest.drop 3)
          (by simp only [List.length_drop]; omega) (-pol) 0 (i + 4)
        push_cast at hrec0 hrec1
        by_cases hcnt : cnt % 2 = 0
        · rw [if_pos hcnt]
          obtain ⟨hp1, hp2⟩ := patternPoints_xFrom [0, 0, 0, pol] i
          refine xFrom_append hp1 ?_ hrec0 (by linarith)
          intro p hp
          have hb := hp2 p hp
          norm_num at hb
          linarith
        · rw [if_neg hcnt]
          obtain ⟨hp1, hp2⟩ := patternPoints_xFrom [-pol, 0, 0, -pol] i
          refine xFrom_append hp1 ?_ hrec1 (by linarith)
          intro p hp
          have hb := hp2 p hp
          norm_num at hb
          linarith
      · rw [if_neg h4]
        by_cases hc : c = '1'
        · rw [if_pos hc]
          have hrec := ih rest hlen (-pol) (cnt + 1) (i + 1)
          push_cast at hrec
          exact xFrom_cons (by linarith) (xFrom_cons (le_refl _) hrec)
        · rw [if_neg hc]
          have hrec := ih rest hlen pol cnt (i + 1)
          push_cast at hrec
          exact xFrom_cons (by linarith) (xFrom_cons (le_refl _) hrec)

/-- The ASK loop is x-monotone from its cursor. -/
lemma askGo_xFrom (s : ℚ → ℚ) : ∀ (l : List Char) (i : ℕ),
    SignalLib.xFrom (i : ℚ) (SignalLib.askGo s i l) := by
  intro l
  induction l with
  | nil => intro i; exact xFrom_nil _
  | cons c rest ih =>
    intro i
    rw [SignalLib.askGo]
    have hrec := ih (i + 1)
    push_cast at hrec
    refine xFrom_append ?_ ?_ hrec (by linarith)
    · rw [SignalLib.askBit]
      apply xFrom_map_range
      · intro j
        dsimp only
        have := (Nat.cast_nonneg j : (0 : ℚ) ≤ j)
        nlinarith
      · intro j
        dsimp only
        push_cast
        nlinarith
    · intro p hp
      rw [SignalLib.askBit] at hp
      obtain ⟨j, hj, rfl⟩ := List.mem_map.mp hp
      dsimp only
      have hj100 : (j : ℚ) ≤ 100 := by
        exact_mod_cast Nat.lt_succ_iff.mp (List.mem_range.mp hj)
      nlinarith

/-- The FSK loop is x-monotone from its cursor. -/
lemma fskGo_xFrom (s : ℚ → ℚ) : ∀ (l : List Char) (i : ℕ),
    SignalLib.xFrom (i : ℚ) (SignalLib.fskGo s i l) := by
  intro l
  induction l with
  | nil => intro i; exact xFrom_nil _
  | cons c rest ih =>
    intro i
    rw [SignalLib.fskGo]
    have hrec := ih (i + 1)
    push_cast at hrec
    refine xFrom_append ?_ ?_ hrec (by linarith)
    · rw [SignalLib.fskBit]
      apply xFrom_map_range
      · intro j
        dsimp only
        have := (Nat.cast_nonneg j : (0 : ℚ) ≤ j)
        nlinarith
      · intro j
        dsimp only
        push_cast
        nlinarith
    · intro p hp
      rw [SignalLib.fskBit] at hp
      obtain ⟨j, hj, rfl⟩ := List.mem_map.mp hp
      dsimp only
      have hj100 : (j : ℚ) ≤ 100 := by
        exact_mod_cast Nat.lt_succ_iff.mp (List.mem_range.mp hj)
      nlinarith

/-- The PSK loop is x-monotone from its cursor. -/
lemma pskGo_xFrom (s : ℚ → ℚ) : ∀ (l : List Char) (i : ℕ),
    SignalLib.xFrom (i : ℚ) (SignalLib.pskGo s i l) := by
  intro l
  induction l with
  | nil => intro i; exact xFrom_nil _
  | cons c rest ih =>
    intro i
    rw [SignalLib.pskGo]
    have hrec := ih (i + 1)
    push_cast at hrec
    refine xFrom_append ?_ ?_ hrec (by linarith)
    · rw [SignalLib.pskBit]
      apply xFrom_map_range
      · intro j
        dsimp only
        have := (Nat.cast_nonneg j : (0 : ℚ) ≤ j)
        nlinarith
      · intro j
        dsimp only
        push_cast
        nlinarith
    · intro p hp
      rw [SignalLib.pskBit] at hp
      obtain ⟨j, hj, rfl⟩ := List.mem_map.mp hp
      dsimp only
      have hj100 : (j : ℚ) ≤ 100 := by
        exact_mod_cast Nat.lt_succ_iff.mp (List.mem_range.mp hj)
      nlinarith

/-- The analog base signal is x-monotone with non-negative times. -/
lemma analogInputSignal_xFrom (s : ℚ → ℚ) (freq amp : ℚ) (sps n : ℕ) :
    SignalLib.xFrom 0 (SignalLib.analogInputSignal s freq amp sps n) := by
  rw [SignalLib.analogInputSignal]
  apply xFrom_map_range
  · intro j
    dsimp only
    positivity
  · intro j
    dsimp only
    push_cast
    have hsps : (0 : ℚ) ≤ 1 / (sps : ℚ) := by positivity
    nlinarith

/-- Tick characterisation of the transmitted list of the
delta-modulation loop, mirroring the PCM one. -/
lemma dmLoop_x_char (input_signal : List SignalLib.Point)
    (si rd delta mn mx : ℚ) (hsi : 0 < si) (hrd : 0 ≤ rd) :
    ∀ fuel i approx acc, (⌊rd / si⌋).toNat + 1 - i < fuel →
      ((SignalLib.dmLoop input_signal si rd delta mn mx fuel i approx acc).1.map
          SignalLib.Point.x =
        (List.range' i ((⌊rd / si⌋).toNat + 1 - i)).map
          (fun (j : ℕ) => SignalLib.round6 ((j : ℚ) * si))) := by
  intro fuel
  induction fuel with
  | zero => intro i approx acc h; exact absurd h (Nat.not_lt_zero _)
  | succ n ih =>
    intro i approx acc h
    rw [SignalLib.dmLoop]
    by_cases hbr : rd < (i : ℚ) * si
    · have hgt : ¬ i ≤ (⌊rd / si⌋).toNat := by
        rw [← tick_le_iff hsi hrd]
        exact not_le.mpr hbr
      have hz : (⌊rd / si⌋).toNat + 1 - i = 0 := by omega
      rw [if_pos hbr, hz]
      simp
    · have hle : i ≤ (⌊rd / si⌋).toNat := by
        rw [← tick_le_iff hsi hrd]
        exact not_lt.mp hbr
      have hsz : (⌊rd / si⌋).toNat + 1 - i = ((⌊rd / si⌋).toNat - i) + 1 := by
        omega
      have hstep : List.range' i ((⌊rd / si⌋).toNat + 1 - i) =
          i :: List.range' (i + 1) ((⌊rd / si⌋).toNat + 1 - (i + 1)) := by
        have h2 : (⌊rd / si⌋).toNat + 1 - (i + 1) = (⌊rd / si⌋).toNat - i := by
          omega
        rw [hsz, h2, List.range'_succ]
      rw [if_neg hbr, hstep]
      dsimp only
      rw [List.map_cons, List.map_cons, ih (i + 1) _ _ (by omega)]

/-- First two stored output points of the delta-modulation loop as
called by the transform: the seed (0, 0) and then the pre-point at
t - 0.001 = -0.001 holding the previous value 0. -/
lemma dmLoop_out_head2 (input_signal : List SignalLib.Point)
    (si rd delta mn mx : ℚ) (hrd : 0 ≤ rd) (n : ℕ) :
    ∃ rest, (SignalLib.dmLoop input_signal si rd delta mn mx (n + 1) 0 0
      [⟨0, 0⟩]).2 = ⟨0, 0⟩ :: ⟨-(1/1000), 0⟩ :: rest := by
  rw [SignalLib.dmLoop]
  rw [if_neg (by push_cast; simpa using hrd)]
  dsimp only
  simp only [Nat.cast_zero, zero_mul, round6_zero, List.isEmpty_cons,
    Bool.false_eq_true, if_false]
  have hpt : (0 : ℚ) - 1e-3 = -(1/1000) := by norm_num
  rw [hpt]
  have hy : ([⟨0, 0⟩] : List SignalLib.Point).getLastD ⟨0, 0⟩ = ⟨0, 0⟩ := rfl
  rw [hy]
  obtain ⟨tail, htail⟩ := dmLoop_acc_grows input_signal si rd delta mn mx n
    (0 + 1) _ _
  rw [htail]
  simp only [List.cons_append, List.nil_append]
  exact ⟨_, rfl⟩

/-- First two output points of the delta-modulation transform on valid
parameters: the seed (0, 0) followed by the point at x = -0.001. -/
lemma dm_output_head2 (s : ℚ → ℚ) (freq amp : ℚ) (cfg : SignalLib.DMConfig)
    (hf : 0 < freq) (ha : 0 < amp) (hsr : 0 < cfg.sampling_rate)
    (hst : 0 < cfg.delta_step_size) (hst1 : cfg.delta_step_size ≤ 1) :
    ∃ rest, (SignalLib.AnalogToDigitalDM s freq amp cfg).output =
      ⟨0, 0⟩ :: ⟨-(1/1000), 0⟩ :: rest := by
  have hcond : ¬ (freq ≤ 0 ∨ amp ≤ 0 ∨ cfg.sampling_rate ≤ 0 ∨
      cfg.delta_step_size ≤ 0 ∨ 1 < cfg.delta_step_size) := by
    push_neg; exact ⟨hf, ha, hsr, hst, hst1⟩
  have hrd := analogInputSignal_realDur s freq amp
  simp only [SignalLib.AnalogToDigitalDM, if_neg hcond, hrd]
  have hfuel : SignalLib.tickFuel (1 / cfg.sampling_rate) (199/100) =
      ((⌊(199/100 : ℚ) / (1 / cfg.sampling_rate)⌋).toNat + 1) + 1 := rfl
  rw [hfuel]
  obtain ⟨rest, hrest⟩ := dmLoop_out_head2
    (SignalLib.analogInputSignal s freq amp 100 200) (1 / cfg.sampling_rate)
    (199/100) (amp * cfg.delta_step_size) (-amp * 1.5) (amp * 1.5)
    (by norm_num) ((⌊(199/100 : ℚ) / (1 / cfg.sampling_rate)⌋).toNat + 1)
  rw [hrest]
  simp only [List.isEmpty_cons, Bool.false_eq_true, if_false, List.cons_append]
  exact ⟨_, rfl⟩

/-- The empty-sequence sentinel trivially satisfies the invariants. -/
lemma goodResult_empty : SignalLib.goodResult SignalLib.emptyResult :=
  ⟨⟨List.chain'_nil, by intro p hp; cases hp⟩,
   ⟨List.chain'_nil, by intro p hp; cases hp⟩,
   ⟨List.chain'_nil, by intro p hp; cases hp⟩⟩

/-- An x-monotone sequence from 0 satisfies both invariants. -/
lemma goodSeq_of_xFrom {l : List SignalLib.Point} (h : SignalLib.xFrom 0 l) :
    SignalLib.goodSeq l := ⟨h.1, h.2⟩

/-- C2 (amended): in every point sequence produced by any transform —
input, transmitted and output of AnalogToAnalog, AnalogToDigitalPCM,
DigitalToAnalog and DigitalToDigital, and input and transmitted of
AnalogToDigitalDM — the x coordinates are non-decreasing in emission
order and non-negative.  The one exception is the Delta Modulation
output staircase: on valid parameters its second stored point, the
pre-point the converter prepends before the first approximation point at
tick t = 0, sits at x = -0.001, which is negative and smaller than the
x = 0 before it (last conjunct).  (The claim as frozen asserts the
invariant for that sequence too, including at the first tick.) -/
theorem claim2_x_invariant_amended :
    (∀ (s : ℚ → ℚ) (mf ma : ℚ) (ty : SignalLib.AnalogModulation),
      SignalLib.goodResult (SignalLib.AnalogToAnalog s mf ma ty)) ∧
    (∀ (s : ℚ → ℚ) (f a : ℚ) (cfg : SignalLib.PCMConfig),
      SignalLib.goodResult (SignalLib.AnalogToDigitalPCM s f a cfg)) ∧
    (∀ (s : ℚ → ℚ) (f a : ℚ) (cfg : SignalLib.DMConfig),
      SignalLib.goodSeq (SignalLib.AnalogToDigitalDM s f a cfg).input ∧
      SignalLib.goodSeq (SignalLib.AnalogToDigitalDM s f a cfg).transmitted) ∧
    (∀ (s : ℚ → ℚ) (bin : List Char) (ty : SignalLib.DigitalModulation),
      SignalLib.goodResult (SignalLib.DigitalToAnalog s bin ty)) ∧
    (∀ (bin : List Char) (ty : SignalLib.LineCoding),
      SignalLib.goodResult (SignalLib.DigitalToDigital bin ty)) ∧
    (∀ (s : ℚ → ℚ) (f a : ℚ) (cfg : SignalLib.DMConfig),
      0 < f → 0 < a → 0 < cfg.sampling_rate → 0 < cfg.delta_step_size →
      cfg.delta_step_size ≤ 1 →
      ∃ rest, (SignalLib.AnalogToDigitalDM s f a cfg).output =
        ⟨0, 0⟩ :: ⟨-(1/1000), 0⟩ :: rest) := by
  refine ⟨?_, ?_, ?_, ?_, ?_, ?_⟩
  · intro s mf ma ty
    by_cases hcond : mf ≤ 0 ∨ ma ≤ 0
    · simp only [SignalLib.AnalogToAnalog, if_pos hcond]
      exact goodResult_empty
    · simp only [SignalLib.AnalogToAnalog, if_neg hcond]
      have hin := analogInputSignal_xFrom s mf ma 200 400
      cases ty <;>
        exact ⟨goodSeq_of_xFrom hin,
          goodSeq_of_xFrom (xFrom_map_x_preserving (fun p => rfl) hin),
          goodSeq_of_xFrom hin⟩
  · intro s f a cfg
    by_cases hcond : f ≤ 0 ∨ a ≤ 0 ∨ cfg.sampling_rate ≤ 0 ∨
        cfg.quantization_levels < 2
    · simp only [SignalLib.AnalogToDigitalPCM, if_pos hcond]
      exact goodResult_empty
    · have hsr : 0 < cfg.sampling_rate := by
        push_neg at hcond; exact hcond.2.2.1
      have hrd := analogInputSignal_realDur s f a
      have hsi : 0 < 1 / cfg.sampling_rate := by positivity
      have hchar := pcmLoop_x_char (SignalLib.analogInputSignal s f a 100 200)
        (1 / cfg.sampling_rate) (199/100) (1 / a)
        (1 / ((cfg.quantization_levels : ℚ) - 1))
        ((cfg.quantization_levels : ℚ) - 1) a hsi (by norm_num)
        (SignalLib.tickFuel (1 / cfg.sampling_rate) (199/100)) 0
        (by rw [SignalLib.tickFuel]; omega)
      have hchain := chainLe_map_range'
        (fun (j : ℕ) => SignalLib.round6 ((j : ℚ) * (1 / cfg.sampling_rate)))
        (fun j => round6_mono (by push_cast; nlinarith [le_of_lt hsi]))
        ((⌊(199/100 : ℚ) / (1 / cfg.sampling_rate)⌋).toNat + 1 - 0) 0
      have hlb : ∀ x ∈ (List.range' 0
          ((⌊(199/100 : ℚ) / (1 / cfg.sampling_rate)⌋).toNat + 1 - 0)).map
          (fun (j : ℕ) => SignalLib.round6 ((j : ℚ) * (1 / cfg.sampling_rate))),
          (0 : ℚ) ≤ x := by
        intro x hx
        obtain ⟨j, hj, rfl⟩ := List.mem_map.mp hx
        exact round6_nonneg (by positivity)
      simp only [SignalLib.AnalogToDigitalPCM, if_neg hcond, hrd]
      exact ⟨goodSeq_of_xFrom (analogInputSignal_xFrom s f a 100 200),
        goodSeq_of_xFrom (xFrom_of_map_x_eq hchar.1 hchain hlb),
        goodSeq_of_xFrom (xFrom_of_map_x_eq hchar.2 hchain hlb)⟩
  · intro s f a cfg
    by_cases hcond : f ≤ 0 ∨ a ≤ 0 ∨ cfg.sampling_rate ≤ 0 ∨
        cfg.delta_step_size ≤ 0 ∨ 1 < cfg.delta_step_size
    · simp only [SignalLib.AnalogToDigitalDM, if_pos hcond]
      exact ⟨goodResult_empty.1, goodResult_empty.2.1⟩
    · have hsr : 0 < cfg.sampling_rate := by
        push_neg at hcond; exact hcond.2.2.1
      have hrd := analogInputSignal_realDur s f a
      have hsi : 0 < 1 / cfg.sampling_rate := by positivity
      have hchar := dmLoop_x_char (SignalLib.analogInputSignal s f a 100 200)
        (1 / cfg.sampling_rate) (199/100) (a * cfg.delta_step_size)
        (-a * 1.5) (a * 1.5) hsi (by norm_num)
        (SignalLib.tickFuel (1 / cfg.sampling_rate) (199/100)) 0 0 [⟨0, 0⟩]
        (by rw [SignalLib.tickFuel]; omega)
      have hchain := chainLe_map_range'
        (fun (j : ℕ) => SignalLib.round6 ((j : ℚ) * (1 / cfg.sampling_rate)))
        (fun j => round6_mono (by push_cast; nlinarith [le_of_lt hsi]))
        ((⌊(199/100 : ℚ) / (1 / cfg.sampling_rate)⌋).toNat + 1 - 0) 0
      have hlb : ∀ x ∈ (List.range' 0
          ((⌊(199/100 : ℚ) / (1 / cfg.sampling_rate)⌋).toNat + 1 - 0)).map
          (fun (j : ℕ) => SignalLib.round6 ((j : ℚ) * (1 / cfg.sampling_rate))),
          (0 : ℚ) ≤ x := by
        intro x hx
        obtain ⟨j, hj, rfl⟩ := List.mem_map.mp hx
        exact round6_nonneg (by positivity)
      simp only [SignalLib.AnalogToDigitalDM, if_neg hcond, hrd]
      exact ⟨goodSeq_of_xFrom (analogInputSignal_xFrom s f a 100 200),
        goodSeq_of_xFrom (xFrom_of_map_x_eq hchar hchain hlb)⟩
  · intro s bin ty
    by_cases hcond : bin.isEmpty = true ∨
        ¬ bin.all SignalLib.validBinaryChar = true
    · simp only [SignalLib.DigitalToAnalog, if_pos hcond]
      exact goodResult_empty
    · simp only [SignalLib.DigitalToAnalog, if_neg hcond]
      have hin := digitalInputGo_xFrom bin 0
      push_cast at hin
      cases ty
      · have h := askGo_xFrom s bin 0
        push_cast at h
        exact ⟨goodSeq_of_xFrom hin, goodSeq_of_xFrom h, goodSeq_of_xFrom hin⟩
      · have h := fskGo_xFrom s bin 0
        push_cast at h
        exact ⟨goodSeq_of_xFrom hin, goodSeq_of_xFrom h, goodSeq_of_xFrom hin⟩
      · have h := pskGo_xFrom s bin 0
        push_cast at h
        exact ⟨goodSeq_of_xFrom hin, goodSeq_of_xFrom h, goodSeq_of_xFrom hin⟩
  · intro bin ty
    by_cases hcond : bin.isEmpty = true ∨
        ¬ bin.all SignalLib.validBinaryChar = true
    · simp only [SignalLib.DigitalToDigital, if_pos hcond]
      exact goodResult_empty
    · simp only [SignalLib.DigitalToDigital, if_neg hcond]
      have hin := digitalInputGo_xFrom bin 0
      push_cast at hin
      cases ty
      · have h := nrzlGo_xFrom bin 0
        push_cast at h
        exact ⟨goodSeq_of_xFrom hin, goodSeq_of_xFrom h, goodSeq_of_xFrom hin⟩
      · have h := nrziGo_xFrom bin 1 0
        push_cast at h
        exact ⟨goodSeq_of_xFrom hin, goodSeq_of_xFrom h, goodSeq_of_xFrom hin⟩
      · have h := manchesterGo_xFrom bin 0
        push_cast at h
        exact ⟨goodSeq_of_xFrom hin, goodSeq_of_xFrom h, goodSeq_of_xFrom hin⟩
      · have h := diffManchesterGo_xFrom bin 1 0
        push_cast at h
        exact ⟨goodSeq_of_xFrom hin, goodSeq_of_xFrom h, goodSeq_of_xFrom hin⟩
      · have h := amiGo_xFrom bin (-1) 0
        push_cast at h
        exact ⟨goodSeq_of_xFrom hin, goodSeq_of_xFrom h, goodSeq_of_xFrom hin⟩
      · have h := pseudoternaryGo_xFrom bin (-1) 0
        push_cast at h
        exact ⟨goodSeq_of_xFrom hin, goodSeq_of_xFrom h, goodSeq_of_xFrom hin⟩
      · have h := b8zsGo_xFrom bin.length bin le_rfl (-1) 0
        push_cast at h
        exact ⟨goodSeq_of_xFrom hin, goodSeq_of_xFrom h, goodSeq_of_xFrom hin⟩
      · have h := hdb3Go_xFrom bin.length bin le_rfl (-1) 0 0
        push_cast at h
        exact ⟨goodSeq_of_xFrom hin, goodSeq_of_xFrom h, goodSeq_of_xFrom hin⟩
  · intro s f a cfg hf ha hsr hst hst1
    exact dm_output_head2 s f a cfg hf ha hsr hst hst1

/-- Counterexample to C2 as frozen: on the valid parameters frequency 1,
amplitude 1, sampling rate 1, step size 1, the Delta Modulation output
staircase contains the point (-0.001, 0) right after (0, 0), so it is
neither non-negative in x nor non-decreasing. -/
theorem claim2_counterexample :
    ((0 : ℚ) < 1) ∧
    ¬ SignalLib.xNonneg (SignalLib.AnalogToDigitalDM (fun _ => 0) 1 1
        ⟨1, 1⟩).output ∧
    ¬ SignalLib.xMono (SignalLib.AnalogToDigitalDM (fun _ => 0) 1 1
        ⟨1, 1⟩).output := by
  obtain ⟨rest, hr⟩ := dm_output_head2 (fun _ => 0) 1 1 ⟨1, 1⟩ (by norm_num)
    (by norm_num) (by norm_num) (by norm_num) (by norm_num)
  refine ⟨by norm_num, ?_, ?_⟩
  · intro hnn
    have hmem : (⟨-(1/1000), 0⟩ : SignalLib.Point) ∈
        (SignalLib.AnalogToDigitalDM (fun _ => 0) 1 1 ⟨1, 1⟩).output := by
      rw [hr]
      exact List.mem_cons_of_mem _ (List.mem_cons_self _ _)
    have := hnn _ hmem
    norm_num at this
  · intro hmono
    rw [SignalLib.xMono, hr] at hmono
    have := (List.chain'_cons.mp hmono).1
    norm_num at this

/-- Witness for the amended C2: the last conjunct carries validity
hypotheses, discharged at frequency 1, amplitude 1, sampling rate 1,
step size 1. -/
theorem claim2_witness :
    (0 : ℚ) < 1 ∧
      ∃ rest, (SignalLib.AnalogToDigitalDM (fun _ => 0) 1 1 ⟨1, 1⟩).output =
        ⟨0, 0⟩ :: ⟨-(1/1000), 0⟩ :: rest :=
  ⟨by norm_num,
    claim2_x_invariant_amended.2.2.2.2.2 (fun _ => 0) 1 1 ⟨1, 1⟩ (by norm_num)
      (by norm_num) (by norm_num) (by norm_num) (by norm_num)⟩
